import Mathlib

/-!
Verification of the File-Bot-Alternative repository (parser.py, tmdb_client.py,
main.py) against its natural-language specification.

Modelling conventions (shallow embedding):
* Python strings are Lean `String`s; character-level work happens on `List Char`
  (`String.data`).  Character classes (`\d`, `\w`, `\s`) are modelled over ASCII.
* Filesystem paths are modelled as lists of components (`List String`); the
  POSIX separator never occurs inside a component.  `os.path.join folder rel`
  becomes list append, `os.path.basename` the last component, `os.path.dirname`
  `List.dropLast`.
* The TMDB client is an abstract collaborator: a structure of functions
  returning `Except String _` ("raises a transport error" = `.error msg`).
* Python truthiness on optional strings/ints (`if imdb:`, `if tv_id:`) is
  modelled explicitly where the source relies on it.
* `os.rename` outcomes are supplied by an oracle `fail : src → dst → Option msg`;
  creation of intermediate directories (`os.makedirs`) is modelled as always
  succeeding (in the source an exception there would be uncaught, a boundary
  this development does not explore).
-/

namespace FileBot

/-! ### Character classes (ASCII models of Python's re classes) -/

/-- `\d` over ASCII. -/
def isDig (c : Char) : Bool := '0' ≤ c && c ≤ '9'

/-- Numeric value of an ASCII digit. -/
def dval (c : Char) : Nat := c.toNat - 48

/-- Value of a digit token, as Python `int` on a digit string. -/
def digitsVal (l : List Char) : Nat := l.foldl (fun a c => 10 * a + dval c) 0

/-- Python `\w` over ASCII: alphanumeric or underscore. -/
def isWordChar (c : Char) : Bool := c.isAlphanum || c == '_'

/-- The class `[\W_]` of parse_tv's separator: non-word or underscore.
Since `_` is not alphanumeric this is exactly "not alphanumeric". -/
def sepClass (c : Char) : Bool := !c.isAlphanum

/-- Separator class of parse_movie's `re.split(r'[.\s]+', name)`:
a dot or (ASCII) whitespace. -/
def tokSep (c : Char) : Bool := c == '.' || c.isWhitespace

/-! ### os.path.splitext

CPython puts the extension at the last dot, provided at least one non-dot
character precedes that dot within the base name (filenames here contain no
path separator). -/

/-- Model of `os.path.splitext` on a plain file name (no directory part).
Working from the right: skip the characters after the last dot; if there is
no dot, or only dots precede the last dot, there is no extension; otherwise
the extension starts at the last dot. -/
def splitext (cs : List Char) : List Char × List Char :=
  match cs.reverse.dropWhile (fun c => c != '.') with
  | [] => (cs, [])
  | _ :: rest =>
    if rest.all (fun c => c == '.') then (cs, [])
    else (rest.reverse, '.' :: (cs.reverse.takeWhile (fun c => c != '.')).reverse)

/-! ### re.split(r'[.\s]+', name)

`tokE` reproduces `re.split` on a run-of-separators pattern: a leading
separator run yields a leading empty token, a trailing run a trailing empty
token, and interior runs are merged. -/

/-- Tokens of `re.split(r'[.\s]+', name)` (never returns `[]`). -/
def tokE : List Char → List (List Char)
  | [] => [[]]
  | c :: rest =>
    if tokSep c then
      match rest with
      | r :: _ => if tokSep r then tokE rest else [] :: tokE rest
      | [] => [] :: tokE rest
    else
      match tokE rest with
      | t :: ts => (c :: t) :: ts
      | [] => [[c]]

/-! ### parser.py : parse_movie -/

structure MovieInfo where
  title : String
  year : Option Nat
  deriving DecidableEq, Repr

/-- `re.fullmatch(r'(19\d{2}|20\d{2})', token)`. -/
def isYearTok : List Char → Bool
  | [a, b, c, d] =>
    ((a == '1' && b == '9') || (a == '2' && b == '0')) && isDig c && isDig d
  | _ => false

/-- `re.fullmatch(r'(?:\d{3,4}p|4k)', token, re.IGNORECASE)`. -/
def isResTok : List Char → Bool
  | [a, k] => a == '4' && (k == 'k' || k == 'K')
  | [a, b, c, p] => isDig a && isDig b && isDig c && (p == 'p' || p == 'P')
  | [a, b, c, d, p] => isDig a && isDig b && isDig c && isDig d && (p == 'p' || p == 'P')
  | _ => false

/-- The `for idx, token in enumerate(parts)` loop of parse_movie: first token
matching the year pattern, returned with the list of preceding tokens. -/
def yearScan : List (List Char) → Option (List (List Char) × Nat)
  | [] => none
  | t :: ts =>
    if isYearTok t then some ([], digitsVal t)
    else (yearScan ts).map (fun p => (t :: p.1, p.2))

/-- `' '.join(parts)`. -/
def joinSpaces (parts : List (List Char)) : String :=
  String.mk (List.intercalate [' '] parts)

/-- parser.py `parse_movie`. -/
def parse_movie (filename : String) : Option MovieInfo :=
  let name := (splitext filename.data).1
  let parts := tokE name
  match yearScan parts with
  | some p => some ⟨joinSpaces p.1, some p.2⟩
  | none =>
    match parts with
    | t0 :: t1 :: _ =>
      if isResTok t1 then some ⟨String.mk t0, none⟩ else none
    | _ => none

/-! ### parser.py : parse_tv

Bespoke matcher for
`re.search(r'(?i)(?P<show>.+?)[\W_]+S(?P<season>\d{1,2})E(?P<episode>\d{2})', name)`,
reproducing the engine's preferences: leftmost start, lazy (shortest) show,
greedy separator run, greedy (two-then-one digit) season. -/

def isS (c : Char) : Bool := c == 'S' || c == 's'
def isE (c : Char) : Bool := c == 'E' || c == 'e'

/-- `E` plus exactly two digits (the episode part), at the head. -/
def matchE2 : List Char → Option Nat
  | e :: d1 :: d2 :: _ =>
    if isE e && isDig d1 && isDig d2 then some (10 * dval d1 + dval d2) else none
  | _ => none

/-- `S\d{1,2}E\d{2}` at the head; the two-digit season is preferred, with a
backtrack to one digit when the tail fails after it. -/
def matchSE : List Char → Option (Nat × Nat)
  | s :: d1 :: rest =>
    if isS s && isDig d1 then
      match rest with
      | d2 :: rest2 =>
        if isDig d2 then
          match matchE2 rest2 with
          | some ep => some (10 * dval d1 + dval d2, ep)
          | none =>
            match matchE2 rest with
            | some ep => some (dval d1, ep)
            | none => none
        else
          match matchE2 rest with
          | some ep => some (dval d1, ep)
          | none => none
      | [] => none
    else none
  | _ => none

/-- `[\W_]+` then the S/E marker: at least one separator, longest run first,
backtracking one character at a time. -/
def sepSE : List Char → Option (Nat × Nat)
  | [] => none
  | c :: rest =>
    if sepClass c then
      match sepSE rest with
      | some r => some r
      | none => matchSE rest
    else none

/-- Lazy show at a fixed start position: extend the show one (non-newline)
character at a time, trying the separator-and-marker tail after each step.
`acc` holds the show read so far, reversed. -/
def findSE : List Char → List Char → Option (List Char × Nat × Nat)
  | _, [] => none
  | acc, c :: rest =>
    if c = '\n' then none
    else
      match sepSE rest with
      | some p => some ((c :: acc).reverse, p.1, p.2)
      | none => findSE (c :: acc) rest

/-- `re.search`: try each start position, leftmost first. -/
def searchTV : List Char → Option (List Char × Nat × Nat)
  | [] => none
  | c :: rest =>
    match findSE [] (c :: rest) with
    | some r => some r
    | none => searchTV rest

/-- Python `str.strip()` (ASCII whitespace). -/
def trimChars (cs : List Char) : List Char :=
  ((cs.dropWhile Char.isWhitespace).reverse.dropWhile Char.isWhitespace).reverse

structure TVInfo where
  show_name : String
  season : Nat
  episode : Nat
  deriving DecidableEq, Repr

/-- parser.py `parse_tv`: match, then `.replace('.', ' ').strip()` on the show. -/
def parse_tv (filename : String) : Option TVInfo :=
  let name := (splitext filename.data).1
  match searchTV name with
  | none => none
  | some r =>
    some ⟨String.mk (trimChars (r.1.map (fun c => if c = '.' then ' ' else c))),
          r.2.1, r.2.2⟩

/-! ### tmdb_client.py

TMDB records are modelled with the fields the core reads; `dict.get` returning
`None` for an absent key makes every field an `Option`. -/

structure MovieResult where
  title : Option String
  release_date : Option String
  id : Option Int
  deriving DecidableEq, Repr

structure TVResult where
  name : Option String
  first_air_date : Option String
  id : Option Int
  deriving DecidableEq, Repr

/-- `re.sub(r'\W+', '', s or '').lower()` of `search_tv`: keep word
characters, then lowercase. -/
def normalize (s : Option String) : String :=
  String.mk (((s.getD "").data.filter isWordChar).map Char.toLower)

/-- The `for r in results` loop of `search_tv`: first result whose normalized
name equals the normalized query. -/
def firstExact (normQuery : String) : List TVResult → Option TVResult
  | [] => none
  | r :: rest =>
    if normalize r.name = normQuery then some r else firstExact normQuery rest

/-- Result-selection logic of `TMDBClient.search_tv`, given the provider's
(already decoded) result list: `None` on an empty list, else the first
normalized-exact match, else the first-ranked result. -/
def search_tv_select (title : String) (results : List TVResult) : Option TVResult :=
  match results with
  | [] => none
  | r0 :: _ =>
    match firstExact (normalize (some title)) results with
    | some r => some r
    | none => some r0

/-! ### The catalog client as an abstract collaborator

Each operation is fallible: `.error msg` models a raised transport error
(`requests` exception / `raise_for_status`), `.ok v` a successful response. -/

structure Client where
  search_movie : String → Option Nat → Except String (Option MovieResult)
  search_tv : String → Except String (Option TVResult)
  get_episode_name : Int → Nat → Nat → Except String (Option String)
  get_movie_imdb_id : Option Int → Except String (Option String)
  get_tv_imdb_id : Int → Except String (Option String)

/-- The `try: ... except Exception: ... = None` wrapper around a secondary
lookup: a raised error degrades to the field being absent. -/
def secondary (r : Except String (Option String)) : Option String :=
  match r with
  | .ok v => v
  | .error _ => none

/-- Python `f"{n:02}"` for a natural number. -/
def pad2 (n : Nat) : String :=
  if n < 10 then "0" ++ toString n else toString n

/-! ### main.py : App.get_new_name -/

/-- main.py `App.get_new_name`: per-file naming.  `parse_movie` is tried
first; `parse_tv` only on its failure; identity when both fail.  Search
calls propagate errors (`Except` bind), the episode-title lookup is wrapped.
`result['id']` (a `KeyError` when absent, swallowed by the same `except`)
is modelled by skipping the lookup when the id is absent. -/
def get_new_name (c : Client) (filename : String) : Except String String :=
  let ext := String.mk (splitext filename.data).2
  match parse_movie filename with
  | some movie =>
    (c.search_movie movie.title movie.year).bind fun result =>
      match result with
      | some r =>
        let title := r.title.getD movie.title
        let release_date := r.release_date.getD ""
        -- `year = release_date[:4] if release_date else None`
        if release_date ≠ "" then
          .ok (title ++ " (" ++ String.mk (release_date.data.take 4) ++ ")" ++ ext)
        else
          .ok (title ++ ext)
      | none =>
        -- fallback to parsed info; `if movie.get('year'):`
        match movie.year with
        | some y => .ok (movie.title ++ " (" ++ toString y ++ ")" ++ ext)
        | none => .ok (movie.title ++ ext)
  | none =>
    match parse_tv filename with
    | some tv =>
      (c.search_tv tv.show_name).bind fun result =>
        match result with
        | some r =>
          let show_name := r.name.getD tv.show_name
          let ep_name : Option String :=
            match r.id with
            | some i => secondary (c.get_episode_name i tv.season tv.episode)
            | none => none
          let season_ep := "S" ++ pad2 tv.season ++ "E" ++ pad2 tv.episode
          -- `if ep_name:` — Python truthiness: None and '' both falsy
          if ep_name.getD "" ≠ "" then
            .ok (show_name ++ " - " ++ season_ep ++ " - " ++ ep_name.getD "" ++ ext)
          else
            .ok (show_name ++ " - " ++ season_ep ++ ext)
        | none =>
          .ok (tv.show_name ++ " - S" ++ pad2 tv.season ++ "E" ++ pad2 tv.episode ++ ext)
    | none => .ok filename

/-! ### main.py : App.scan_folder

The filesystem tree under the scan root: an ordered list of file names and an
ordered list of named subtrees (the orders `os.scandir` reports). -/

inductive Dir where
  | node (files : List String) (subdirs : List (String × Dir))
  deriving Repr

def Dir.files : Dir → List String
  | .node fs _ => fs

def Dir.subdirs : Dir → List (String × Dir)
  | .node _ ds => ds

/- `os.walk` (top-down): each visited directory as (path relative to the
root, as components; `[]` for the root itself) with its file list, in
traversal order. -/
mutual
def walk : Dir → List (List String × List String)
  | .node files subdirs => ([], files) :: walkList subdirs

def walkList : List (String × Dir) → List (List String × List String)
  | [] => []
  | (n, d) :: rest =>
    (walk d).map (fun q => (n :: q.1, q.2)) ++ walkList rest
end

/-- First element of the walk (in order) on which `f` fires: the
double `for` loop with breaks that locates the first episode file. -/
def findFirst (f : String → Option α) : List (List String × List String) → Option α
  | [] => none
  | e :: rest =>
    match e.2.findSome? f with
    | some v => some v
    | none => findFirst f rest

/-- `season_map[season_dir] = season`: Python dicts keep insertion order and
overwrite the value in place. -/
def upsert (m : List (String × Nat)) (k : String) (v : Nat) : List (String × Nat) :=
  match m with
  | [] => [(k, v)]
  | (k', v') :: rest =>
    if k' = k then (k', v) :: rest else (k', v') :: upsert rest k v

/-- The season_map loop: for every non-root directory of the walk, the first
path component names the candidate season folder; every episode file in it
(re)binds that folder's season (last one wins). -/
def buildSeasonMap (entries : List (List String × List String)) : List (String × Nat) :=
  entries.foldl
    (fun m e =>
      match e.1 with
      | [] => m
      | seasonDir :: _ =>
        e.2.foldl
          (fun m' f =>
            match parse_tv f with
            | some tv => upsert m' seasonDir tv.season
            | none => m')
          m)
    []

/-- `List.mapM` for `Except`, written as the source's accumulating loop. -/
def mapExcept (f : α → Except ε β) : List α → Except ε (List β)
  | [] => .ok []
  | a :: as =>
    match f a with
    | .error e => .error e
    | .ok b =>
      match mapExcept f as with
      | .error e => .error e
      | .ok bs => .ok (b :: bs)

/-- The file-preview loop of `scan_folder` for one visited directory:
`old_rel = rel_dir + [f]`, `new_rel = rel_dir + [get_new_name f]`. -/
def fileEntriesDir (c : Client) (rel : List String) (files : List String) :
    Except String (List (List String × List String)) :=
  mapExcept (fun f => (get_new_name c f).map fun nf => (rel ++ [f], rel ++ [nf])) files

/-- All file-preview entries, in walk order. -/
def fileEntries (c : Client) (entries : List (List String × List String)) :
    Except String (List (List String × List String)) :=
  (mapExcept (fun e => fileEntriesDir c e.1 e.2) entries).map List.flatten

/-- The folder-preview entries of the single-movie branch
(`not subdirs and len(files_root) == 1`). -/
def movieFolderEntries (c : Client) (base_name f0 : String) :
    Except String (List (String × String)) :=
  match parse_movie f0 with
  | some movie =>
    (c.search_movie movie.title movie.year).map fun result =>
      match result with
      | some r =>
        let title := r.title.getD movie.title
        let year := String.mk ((r.release_date.getD "").data.take 4)
        let imdb := secondary (c.get_movie_imdb_id r.id)
        let new_name := title ++ " (" ++ year ++ ")"
        -- `if imdb:` — Plex curly-brace suffix
        let new_name :=
          if imdb.getD "" ≠ "" then
            new_name ++ " \x7bimdb-" ++ imdb.getD "" ++ "\x7d"
          else new_name
        [(base_name, new_name)]
      | none => []
  | none => .ok []

/-- The folder-preview entries of the TV branch: the root-show entry first,
then one entry per season directory. -/
def tvFolderEntries (c : Client) (base_name : String)
    (entries : List (List String × List String)) :
    Except String (List (String × String)) :=
  match findFirst parse_tv entries with
  | some tv =>
    (c.search_tv tv.show_name).map fun result =>
      let show_name := match result with
        | some r => r.name.getD tv.show_name
        | none => tv.show_name
      -- `if result and result.get('first_air_date'):`
      let year := match result with
        | some r =>
          if r.first_air_date.getD "" ≠ "" then
            String.mk ((r.first_air_date.getD "").data.take 4)
          else ""
        | none => ""
      let tv_id : Option Int := match result with
        | some r => r.id
        | none => none
      -- `imdb = self.client.get_tv_imdb_id(tv_id) if tv_id else None`, wrapped
      let imdb : Option String := match tv_id with
        | some i => if i ≠ 0 then secondary (c.get_tv_imdb_id i) else none
        | none => none
      let new_show := if year ≠ "" then show_name ++ " (" ++ year ++ ")" else show_name
      let new_show :=
        if imdb.getD "" ≠ "" then
          new_show ++ " \x7bimdb-" ++ imdb.getD "" ++ "\x7d"
        else new_show
      (base_name, new_show) ::
        (buildSeasonMap entries).map (fun p => (p.1, "Season " ++ pad2 p.2))
  | none => .ok []

/-- main.py `App.scan_folder` (validation and UI plumbing excluded): the
folder-preview list, then the file-preview list over the whole walk. -/
def scan_folder (c : Client) (base_name : String) (d : Dir) :
    Except String (List (String × String) × List (List String × List String)) :=
  let entries := walk d
  let folders : Except String (List (String × String)) :=
    if d.subdirs.isEmpty && d.files.length == 1 then
      match d.files with
      | [f0] => movieFolderEntries c base_name f0
      | _ => .ok []
    else
      tvFolderEntries c base_name entries
  folders.bind fun fl =>
    (fileEntries c entries).map fun fs => (fl, fs)

/-! ### main.py : App.rename_files

The executor.  `fail src dst` is the filesystem oracle for `os.rename`:
`none` means success, `some msg` a raised `OSError` with that message.  Each
attempted rename is recorded, tagged by the loop that issued it. -/

inductive Op where
  | file (src dst : List String)
  | folder (src dst : List String)
  | root (src dst : List String)
  deriving DecidableEq, Repr

/-- Relative path shown in error labels (`os.sep` = "/"). -/
def pathStr (p : List String) : String := String.intercalate "/" p

/-- Observer: is this attempted rename the root-folder rename (loop 3)? -/
def isRootOp : Op → Bool
  | .root _ _ => true
  | _ => false

inductive Report where
  | success
  | failure (errors : List String)
  deriving DecidableEq, Repr

/-- Loop 1: every file entry, in plan order. -/
def execFiles (fail : List String → List String → Option String)
    (folder : List String) :
    List (List String × List String) → List Op × List String
  | [] => ([], [])
  | (orig, new) :: rest =>
    let src := folder ++ orig
    let dst := folder ++ new
    let r := execFiles fail folder rest
    (Op.file src dst :: r.1,
     match fail src dst with
     | some e => ("File " ++ pathStr orig ++ ": " ++ e) :: r.2
     | none => r.2)

/-- Loop 2: folder entries whose old name differs from the root's base name. -/
def execFolders (fail : List String → List String → Option String)
    (folder : List String) (base_name : String) :
    List (String × String) → List Op × List String
  | [] => ([], [])
  | (old, new) :: rest =>
    if old = base_name then execFolders fail folder base_name rest
    else
      let src := folder ++ [old]
      let dst := folder ++ [new]
      let r := execFolders fail folder base_name rest
      (Op.folder src dst :: r.1,
       match fail src dst with
       | some e => ("Folder " ++ old ++ ": " ++ e) :: r.2
       | none => r.2)

/-- Loop 3: folder entries whose old name equals the root's base name,
renamed as a sibling of the root (same parent, new base name). -/
def execRoot (fail : List String → List String → Option String)
    (folder : List String) (base_name : String) :
    List (String × String) → List Op × List String
  | [] => ([], [])
  | (old, new) :: rest =>
    if old = base_name then
      let src := folder
      let dst := folder.dropLast ++ [new]
      let r := execRoot fail folder base_name rest
      (Op.root src dst :: r.1,
       match fail src dst with
       | some e => ("Root folder " ++ old ++ ": " ++ e) :: r.2
       | none => r.2)
    else execRoot fail folder base_name rest

/-- main.py `App.rename_files`: the three loops in program order, the
accumulated error list, and the final report (success iff no errors). -/
def rename_files (fail : List String → List String → Option String)
    (folder : List String) (filePrev : List (List String × List String))
    (folderPrev : List (String × String)) : List Op × List String × Report :=
  let base_name := (folder.getLast?).getD ""
  let r1 := execFiles fail folder filePrev
  let r2 := execFolders fail folder base_name folderPrev
  let r3 := execRoot fail folder base_name folderPrev
  let errors := r1.2 ++ r2.2 ++ r3.2
  (r1.1 ++ r2.1 ++ r3.1, errors,
   if errors = [] then Report.success else Report.failure errors)

/-! ### Concrete fixtures for witnesses and counterexamples -/

/-- A client every call of which succeeds with an empty payload. -/
def okClient : Client where
  search_movie := fun _ _ => .ok none
  search_tv := fun _ => .ok none
  get_episode_name := fun _ _ _ => .ok none
  get_movie_imdb_id := fun _ => .ok none
  get_tv_imdb_id := fun _ => .ok none

/-- A catalog knowing one show, "Show" (id 7, no air date, no imdb id), whose
episode 1x01 has the given title; all movie searches miss. -/
def showClient (epTitle : String) : Client where
  search_movie := fun _ _ => .ok none
  search_tv := fun t => if t = "Show" then .ok (some ⟨some "Show", none, some 7⟩) else .ok none
  get_episode_name := fun i s e =>
    if i = 7 ∧ s = 1 ∧ e = 1 then .ok (some epTitle) else .ok none
  get_movie_imdb_id := fun _ => .ok none
  get_tv_imdb_id := fun _ => .ok none

/-- A client whose show search raises a transport error. -/
def tvErrClient : Client where
  search_movie := fun _ _ => .ok none
  search_tv := fun _ => .error "boom"
  get_episode_name := fun _ _ _ => .ok none
  get_movie_imdb_id := fun _ => .ok none
  get_tv_imdb_id := fun _ => .ok none

/-- A show-layout tree: one season folder holding one episode file. -/
def showTree : Dir := .node [] [("S1", .node ["Show.S01E01.mkv"] [])]

/-! ## Specification-side definitions

These follow the wording of the specification (and of the claims derived from
it), to be compared with the source-derived definitions above. -/

/-- Spec wording: a token "matching exactly a 4-digit year in 1900–2099". -/
def isYearSpec (t : List Char) : Bool :=
  t.length == 4 && t.all isDig &&
    decide (1900 ≤ digitsVal t) && decide (digitsVal t ≤ 2099)

/-- Spec wording: a "resolution marker (3-4 digits followed by 'p', or '4k',
case-insensitive)". -/
def isResSpec (t : List Char) : Bool :=
  (decide (3 ≤ t.length - 1) && decide (t.length - 1 ≤ 4) && t.dropLast.all isDig &&
    (match t.getLast? with
     | some p => p == 'p' || p == 'P'
     | none => false))
  || t == ['4', 'k'] || t == ['4', 'K']

/-- `parseMovie` as the spec states it: strip the extension, split on runs of
dots/whitespace, return on the earliest year token (title = preceding tokens
joined by single spaces), else the resolution fallback on the second token,
else none. -/
def parseMovieSpec (filename : String) : Option MovieInfo :=
  let parts := tokE (splitext filename.data).1
  match parts.dropWhile (fun t => !isYearSpec t) with
  | y :: _ =>
    some ⟨joinSpaces (parts.takeWhile (fun t => !isYearSpec t)), some (digitsVal y)⟩
  | [] =>
    match parts with
    | t0 :: t1 :: _ => if isResSpec t1 then some ⟨String.mk t0, none⟩ else none
    | _ => none

/-- Declarative reading of the episode marker `S` + 1-2 digits + `E` + exactly
2 digits (case-insensitive), at the head of `t`, yielding season and episode
values. -/
def SETailP (t : List Char) (s e : Nat) : Prop :=
  ∃ sc ds ec d1 d2 rest,
    t = sc :: (ds ++ ec :: d1 :: d2 :: rest) ∧
    isS sc = true ∧ isE ec = true ∧
    (∀ c ∈ ds, isDig c = true) ∧ (ds.length = 1 ∨ ds.length = 2) ∧
    isDig d1 = true ∧ isDig d2 = true ∧
    s = digitsVal ds ∧ e = 10 * dval d1 + dval d2

/-- Declarative reading of "one-or-more non-word-or-underscore separators,
then the episode marker", at the head of `r`. -/
def SepSEP (r : List Char) (s e : Nat) : Prop :=
  ∃ sep t, r = sep ++ t ∧ sep ≠ [] ∧ (∀ c ∈ sep, sepClass c = true) ∧ SETailP t s e

/-- Declarative reading of one match of the full pattern inside `cs`: a start
position `i`, a non-empty show of `L` non-newline characters, then separators
and the marker. -/
def MatchAtP (cs : List Char) (i L : Nat) (s e : Nat) : Prop :=
  i + L ≤ cs.length ∧ 0 < L ∧
  (∀ c ∈ (cs.drop i).take L, c ≠ '\n') ∧
  SepSEP (cs.drop (i + L)) s e

/-- The base name of the naming scheme's movie target form:
`"{title} ({year})"`. -/
def movieFormBase (t w : List Char) : List Char :=
  t ++ ' ' :: '(' :: (w ++ [')'])

/-- A movie-form file name `"{title} ({year}){ext}"`. -/
def movieFormName (t w e : List Char) : String :=
  String.mk (movieFormBase t w ++ '.' :: e)

/-! ## Theorems -/

/-! ### Character-class bridges -/

theorem char_eq_iff_toNat {a b : Char} : a = b ↔ a.toNat = b.toNat := by
  constructor
  · intro h; rw [h]
  · intro h; cases a; cases b
    simp only [Char.toNat] at h
    congr 1
    exact UInt32.ext h

theorem isDig_iff {c : Char} : isDig c = true ↔ 48 ≤ c.toNat ∧ c.toNat ≤ 57 := by
  simp only [isDig, Bool.and_eq_true, decide_eq_true_eq]
  exact ⟨fun ⟨h1, h2⟩ => ⟨h1, h2⟩, fun ⟨h1, h2⟩ => ⟨h1, h2⟩⟩

/-! ### C3: parse_movie agrees with the spec's description -/

theorem isYearTok_eq_spec (t : List Char) : isYearTok t = isYearSpec t := by
  match t with
  | [] => rfl
  | [a] => simp [isYearTok, isYearSpec]
  | [a, b] => simp [isYearTok, isYearSpec]
  | [a, b, c] => simp [isYearTok, isYearSpec]
  | a :: b :: c :: d :: e :: r => simp [isYearTok, isYearSpec]
  | [a, b, c, d] =>
    rw [Bool.eq_iff_iff]
    simp only [isYearTok, isYearSpec, digitsVal, List.foldl, List.all_cons,
      List.all_nil, List.length_cons, List.length_nil, Bool.and_eq_true,
      Bool.or_eq_true, beq_iff_eq, decide_eq_true_eq, Bool.and_true]
    rw [isDig_iff, isDig_iff, isDig_iff, isDig_iff]
    rw [char_eq_iff_toNat, char_eq_iff_toNat, char_eq_iff_toNat, char_eq_iff_toNat]
    have e1 : '1'.toNat = 49 := rfl
    have e9 : '9'.toNat = 57 := rfl
    have e2 : '2'.toNat = 50 := rfl
    have e0 : '0'.toNat = 48 := rfl
    rw [e1, e9, e2, e0]
    simp only [dval, true_and]
    omega

theorem isResTok_eq_spec (t : List Char) : isResTok t = isResSpec t := by
  match t with
  | [] => rfl
  | [a] => simp [isResTok, isResSpec]
  | [a, k] =>
    rw [Bool.eq_iff_iff]
    simp [isResTok, isResSpec]
    tauto
  | [a, b, c] => simp [isResTok, isResSpec]
  | [a, b, c, p] =>
    rw [Bool.eq_iff_iff]
    simp [isResTok, isResSpec]
    tauto
  | [a, b, c, d, p] =>
    rw [Bool.eq_iff_iff]
    simp [isResTok, isResSpec]
    tauto
  | a :: b :: c :: d :: e :: f :: r =>
    simp [isResTok, isResSpec]

theorem yearScan_eq_spec (ts : List (List Char)) :
    yearScan ts =
      match ts.dropWhile (fun t => !isYearTok t) with
      | y :: _ =>
        some (ts.takeWhile (fun t => !isYearTok t), digitsVal y)
      | [] => none := by
  induction ts with
  | nil => rfl
  | cons t ts ih =>
    by_cases h : isYearTok t = true
    · simp [yearScan, h, List.dropWhile_cons, List.takeWhile_cons]
    · rw [Bool.not_eq_true] at h
      simp only [yearScan, h, Bool.false_eq_true, if_false, List.dropWhile_cons,
        List.takeWhile_cons, h, Bool.not_false, if_true, ih]
      cases hd : ts.dropWhile (fun t => !isYearTok t) with
      | nil => rfl
      | cons y rest => rfl

/-- C3.  For every filename, `parse_movie` strips the extension, splits the
base name on runs of dots/whitespace, returns on the earliest token that is
a 4-digit year in 1900–2099 (title = preceding tokens joined by single
spaces, year = the token's value); failing that, with at least two tokens
and the second a resolution marker (3-4 digits then 'p', or '4k',
case-insensitively) it returns the first token with no year; otherwise it
returns none.  Stated as: `parse_movie` equals the function written from the
spec's words. -/
theorem c3_parse_movie_follows_spec (filename : String) :
    parse_movie filename = parseMovieSpec filename := by
  have hpred : (fun t => !isYearTok t) = (fun t => !isYearSpec t) := by
    funext t; rw [isYearTok_eq_spec]
  simp only [parse_movie, parseMovieSpec, yearScan_eq_spec, hpred, isResTok_eq_spec]
  cases hd : (tokE (splitext filename.data).1).dropWhile (fun t => !isYearSpec t) with
  | cons y rest => rfl
  | nil => rfl

/-! ### C8: search_tv result selection -/

theorem firstExact_eq_find (q : String) (rs : List TVResult) :
    firstExact q rs = rs.find? (fun r => normalize r.name == q) := by
  induction rs with
  | nil => rfl
  | cons r rest ih =>
    by_cases h : normalize r.name = q
    · rw [List.find?_cons_of_pos _ (by simp [h])]
      simp [firstExact, h]
    · rw [List.find?_cons_of_neg _ (by simp [h])]
      simp [firstExact, h, ih]

/-- C8.  `search_tv`'s selection over the provider's result list: none on an
empty list; otherwise the first result whose normalized name (non-word
characters stripped, lowercased) equals the normalized query; otherwise the
provider's first-ranked result. -/
theorem c8_search_tv_selection (title : String) (results : List TVResult) :
    search_tv_select title results =
      match results with
      | [] => none
      | r0 :: _ =>
        some (((results.find?
          (fun r => normalize r.name == normalize (some title))).getD r0)) := by
  cases results with
  | nil => rfl
  | cons r0 rest =>
    simp only [search_tv_select, firstExact_eq_find]
    cases hf : (r0 :: rest).find? (fun r => normalize r.name == normalize (some title)) with
    | none => simp [hf]
    | some r => simp [hf]

/-! ### Executor lemmas (shared by the C1 and C7 theorems) -/

theorem execFiles_trace (fail : List String → List String → Option String)
    (folder : List String) (l : List (List String × List String)) :
    (execFiles fail folder l).1 =
      l.map (fun p => Op.file (folder ++ p.1) (folder ++ p.2)) := by
  induction l with
  | nil => rfl
  | cons p rest ih => simp [execFiles, ih]

theorem execFiles_errors (fail : List String → List String → Option String)
    (folder : List String) (l : List (List String × List String)) :
    (execFiles fail folder l).2 =
      l.filterMap (fun p =>
        (fail (folder ++ p.1) (folder ++ p.2)).map
          (fun e => "File " ++ pathStr p.1 ++ ": " ++ e)) := by
  induction l with
  | nil => rfl
  | cons p rest ih =>
    simp only [execFiles, List.filterMap_cons]
    cases hf : fail (folder ++ p.1) (folder ++ p.2) with
    | none => simpa [hf] using ih
    | some e => simpa [hf] using ih

theorem execFolders_trace (fail : List String → List String → Option String)
    (folder : List String) (b : String) (l : List (String × String)) :
    (execFolders fail folder b l).1 =
      (l.filter (fun p => p.1 != b)).map
        (fun p => Op.folder (folder ++ [p.1]) (folder ++ [p.2])) := by
  induction l with
  | nil => rfl
  | cons p rest ih =>
    by_cases h : p.1 = b
    · simp [execFolders, h, List.filter_cons, ih]
    · simp [execFolders, h, List.filter_cons, ih]

theorem execFolders_errors (fail : List String → List String → Option String)
    (folder : List String) (b : String) (l : List (String × String)) :
    (execFolders fail folder b l).2 =
      (l.filter (fun p => p.1 != b)).filterMap (fun p =>
        (fail (folder ++ [p.1]) (folder ++ [p.2])).map
          (fun e => "Folder " ++ p.1 ++ ": " ++ e)) := by
  induction l with
  | nil => rfl
  | cons p rest ih =>
    by_cases h : p.1 = b
    · have hb : (p.1 != b) = false := by simp [h]
      simp [execFolders, h, List.filter_cons, hb, ih]
    · simp only [execFolders, h, if_false, List.filter_cons]
      have hb : (p.1 != b) = true := by simp [h]
      simp only [hb, if_true, List.filterMap_cons]
      cases hf : fail (folder ++ [p.1]) (folder ++ [p.2]) with
      | none => simpa [hf] using ih
      | some e => simpa [hf] using ih

theorem execRoot_trace (fail : List String → List String → Option String)
    (folder : List String) (b : String) (l : List (String × String)) :
    (execRoot fail folder b l).1 =
      (l.filter (fun p => p.1 == b)).map
        (fun p => Op.root folder (folder.dropLast ++ [p.2])) := by
  induction l with
  | nil => rfl
  | cons p rest ih =>
    by_cases h : p.1 = b
    · simp [execRoot, h, List.filter_cons, ih]
    · simp [execRoot, h, List.filter_cons, ih]

theorem execRoot_errors (fail : List String → List String → Option String)
    (folder : List String) (b : String) (l : List (String × String)) :
    (execRoot fail folder b l).2 =
      (l.filter (fun p => p.1 == b)).filterMap (fun p =>
        (fail folder (folder.dropLast ++ [p.2])).map
          (fun e => "Root folder " ++ p.1 ++ ": " ++ e)) := by
  induction l with
  | nil => rfl
  | cons p rest ih =>
    by_cases h : p.1 = b
    · have hb : (p.1 == b) = true := by simp [h]
      cases hf : fail folder (folder.dropLast ++ [p.2]) with
      | none => simp [execRoot, h, List.filter_cons, hb, hf, ih]
      | some e => simp [execRoot, h, List.filter_cons, hb, hf, ih]
    · have hb : (p.1 == b) = false := by simp [h]
      simp [execRoot, h, List.filter_cons, hb, ih]

/-- A root-tagged op never precedes a non-root op when the trace is a
root-free block followed by a root-only block. -/
theorem no_root_before {A C : List Op}
    (hA : ∀ op ∈ A, isRootOp op = false) (hC : ∀ op ∈ C, isRootOp op = true) :
    ∀ (i j : Nat) (op1 op2 : Op), (A ++ C)[i]? = some op1 → (A ++ C)[j]? = some op2 →
      isRootOp op1 = true → isRootOp op2 = false → j < i := by
  intro i j op1 op2 hi hj hri hnj
  have hige : A.length ≤ i := by
    by_contra hia
    push_neg at hia
    rw [List.getElem?_append_left hia] at hi
    rw [hA _ (List.getElem?_mem hi)] at hri
    exact absurd hri (by decide)
  have hjlt : j < A.length := by
    by_contra hja
    push_neg at hja
    rw [List.getElem?_append_right hja] at hj
    rw [hC _ (List.getElem?_mem hj)] at hnj
    exact absurd hnj (by decide)
  omega

/-- C1.  The executor applies renames in exactly this order: every file entry
in plan order, then every folder entry whose old name differs from the
root's base name in plan order, then the folder entries whose old name
equals the root's base name, resolved as a sibling of the root (same parent
directory, new base name); in particular a root rename never precedes any
non-root rename in the batch. -/
theorem c1_executor_order (fail : List String → List String → Option String)
    (folder : List String) (filePrev : List (List String × List String))
    (folderPrev : List (String × String)) :
    (rename_files fail folder filePrev folderPrev).1 =
      (filePrev.map (fun p => Op.file (folder ++ p.1) (folder ++ p.2)) ++
       (folderPrev.filter (fun p => p.1 != (folder.getLast?).getD "")).map
         (fun p => Op.folder (folder ++ [p.1]) (folder ++ [p.2]))) ++
      (folderPrev.filter (fun p => p.1 == (folder.getLast?).getD "")).map
        (fun p => Op.root folder (folder.dropLast ++ [p.2])) ∧
    (∀ (i j : Nat) (op1 op2 : Op),
      (rename_files fail folder filePrev folderPrev).1[i]? = some op1 →
      (rename_files fail folder filePrev folderPrev).1[j]? = some op2 →
      isRootOp op1 = true → isRootOp op2 = false → j < i) := by
  have htr : (rename_files fail folder filePrev folderPrev).1 =
      (filePrev.map (fun p => Op.file (folder ++ p.1) (folder ++ p.2)) ++
       (folderPrev.filter (fun p => p.1 != (folder.getLast?).getD "")).map
         (fun p => Op.folder (folder ++ [p.1]) (folder ++ [p.2]))) ++
      (folderPrev.filter (fun p => p.1 == (folder.getLast?).getD "")).map
        (fun p => Op.root folder (folder.dropLast ++ [p.2])) := by
    simp [rename_files, execFiles_trace, execFolders_trace, execRoot_trace,
      List.append_assoc]
  refine ⟨htr, ?_⟩
  intro i j op1 op2 hi hj hri hnj
  rw [htr] at hi hj
  refine no_root_before ?_ ?_ i j op1 op2 hi hj hri hnj
  · intro op hop
    rcases List.mem_append.mp hop with h | h
    · obtain ⟨p, _, rfl⟩ := List.mem_map.mp h
      rfl
    · obtain ⟨p, _, rfl⟩ := List.mem_map.mp h
      rfl
  · intro op hop
    obtain ⟨p, _, rfl⟩ := List.mem_map.mp hop
    rfl

/-! ### C7: executor error accumulation -/

theorem filterMap_eq_single {α β : Type} (l : List α) (f : α → Option β)
    (k : Nat) (hk : k < l.length) (v : β) (hv : f l[k] = some v)
    (h0 : ∀ i, (hi : i < l.length) → i ≠ k → f l[i] = none) :
    l.filterMap f = [v] := by
  induction l generalizing k with
  | nil => simp at hk
  | cons a as ih =>
    cases k with
    | zero =>
      simp only [List.getElem_cons_zero] at hv
      rw [List.filterMap_cons, hv]
      show v :: List.filterMap f as = [v]
      congr 1
      rw [List.filterMap_eq_nil_iff]
      intro b hb
      obtain ⟨i, hi, rfl⟩ := List.mem_iff_getElem.mp hb
      have := h0 (i + 1) (by simpa using Nat.succ_lt_succ hi) (by omega)
      simpa using this
    | succ k2 =>
      have ha : f a = none := by
        have := h0 0 (by simp) (by omega)
        simpa using this
      rw [List.filterMap_cons, ha]
      exact ih k2 (by simpa using hk) (by simpa using hv)
        (fun i hi hne => by
          have := h0 (i + 1) (by simpa using Nat.succ_lt_succ hi) (by omega)
          simpa using this)

theorem folders_trace_length (fail : List String → List String → Option String)
    (folder : List String) (b : String) (l : List (String × String)) :
    (execFolders fail folder b l).1.length + (execRoot fail folder b l).1.length
      = l.length := by
  induction l with
  | nil => rfl
  | cons p rest ih =>
    by_cases h : p.1 = b
    · simp only [execFolders, execRoot, h, if_true, List.length_cons]
      omega
    · simp only [execFolders, execRoot, h, if_false, List.length_cons]
      omega

/-- C7.  If applying file entry `k` fails while every other rename succeeds,
the executor still attempts every file and folder entry (the trace covers the
whole plan), records exactly one labeled error for entry `k`, and reports the
aggregate failure list; with no failures at all the report is success. -/
theorem c7_error_accumulation
    (fail : List String → List String → Option String)
    (folder : List String) (filePrev : List (List String × List String))
    (folderPrev : List (String × String)) (k : Nat) (msg : String)
    (hk : k < filePrev.length)
    (hfk : fail (folder ++ filePrev[k].1) (folder ++ filePrev[k].2) = some msg)
    (hfi : ∀ i, (hi : i < filePrev.length) → i ≠ k →
      fail (folder ++ filePrev[i].1) (folder ++ filePrev[i].2) = none)
    (hfolders : ∀ p ∈ folderPrev, p.1 ≠ (folder.getLast?).getD "" →
      fail (folder ++ [p.1]) (folder ++ [p.2]) = none)
    (hroot : ∀ p ∈ folderPrev, p.1 = (folder.getLast?).getD "" →
      fail folder (folder.dropLast ++ [p.2]) = none) :
    (rename_files fail folder filePrev folderPrev).2.1 =
      ["File " ++ pathStr filePrev[k].1 ++ ": " ++ msg] ∧
    (rename_files fail folder filePrev folderPrev).2.2 =
      Report.failure ["File " ++ pathStr filePrev[k].1 ++ ": " ++ msg] ∧
    (rename_files fail folder filePrev folderPrev).1.length =
      filePrev.length + folderPrev.length ∧
    (rename_files (fun _ _ => none) folder filePrev folderPrev).2.2 =
      Report.success := by
  have hfileErr : (execFiles fail folder filePrev).2 =
      ["File " ++ pathStr filePrev[k].1 ++ ": " ++ msg] := by
    rw [execFiles_errors]
    exact filterMap_eq_single _ _ k hk _ (by rw [hfk]; rfl)
      (fun i hi hne => by rw [hfi i hi hne]; rfl)
  have hfolderErr : (execFolders fail folder ((folder.getLast?).getD "") folderPrev).2 = [] := by
    rw [execFolders_errors, List.filterMap_eq_nil_iff]
    intro p hp
    have hmem := List.mem_of_mem_filter hp
    have hne : p.1 ≠ (folder.getLast?).getD "" := by
      have := List.of_mem_filter hp
      simpa using this
    rw [hfolders p hmem hne]
    rfl
  have hrootErr : (execRoot fail folder ((folder.getLast?).getD "") folderPrev).2 = [] := by
    rw [execRoot_errors, List.filterMap_eq_nil_iff]
    intro p hp
    have hmem := List.mem_of_mem_filter hp
    have heq : p.1 = (folder.getLast?).getD "" := by
      have := List.of_mem_filter hp
      simpa using this
    rw [hroot p hmem heq]
    rfl
  have herr : (rename_files fail folder filePrev folderPrev).2.1 =
      ["File " ++ pathStr filePrev[k].1 ++ ": " ++ msg] := by
    simp only [rename_files, hfileErr, hfolderErr, hrootErr, List.append_nil]
  refine ⟨herr, ?_, ?_, ?_⟩
  · show (if _ = ([] : List String) then Report.success else _) = _
    simp only [rename_files] at herr ⊢
    rw [hfileErr, hfolderErr, hrootErr]
    simp
  · simp only [rename_files, List.length_append, execFiles_trace, List.length_map]
    have := folders_trace_length fail folder ((folder.getLast?).getD "") folderPrev
    omega
  · have h1 : (execFiles (fun _ _ => none) folder filePrev).2 = [] := by
      rw [execFiles_errors, List.filterMap_eq_nil_iff]
      intro p _
      rfl
    have h2 : (execFolders (fun _ _ => none) folder ((folder.getLast?).getD "") folderPrev).2 = [] := by
      rw [execFolders_errors, List.filterMap_eq_nil_iff]
      intro p _
      rfl
    have h3 : (execRoot (fun _ _ => none) folder ((folder.getLast?).getD "") folderPrev).2 = [] := by
      rw [execRoot_errors, List.filterMap_eq_nil_iff]
      intro p _
      rfl
    simp [rename_files, h1, h2, h3]

/-- Witness for C7 at a concrete two-file plan whose first entry fails. -/
theorem c7_error_accumulation_witness :
    (rename_files
        (fun s _ => if s = ["root", "a.mkv"] then some "denied" else none)
        ["root"] [(["a.mkv"], ["A.mkv"]), (["c.mkv"], ["D.mkv"])]
        [("root", "New"), ("S1", "Season 01")]).2.1 =
      ["File " ++
        pathStr ([(["a.mkv"], ["A.mkv"]), (["c.mkv"], ["D.mkv"])][0].1) ++
        ": " ++ "denied"] ∧
    (rename_files
        (fun s _ => if s = ["root", "a.mkv"] then some "denied" else none)
        ["root"] [(["a.mkv"], ["A.mkv"]), (["c.mkv"], ["D.mkv"])]
        [("root", "New"), ("S1", "Season 01")]).2.2 =
      Report.failure ["File " ++
        pathStr ([(["a.mkv"], ["A.mkv"]), (["c.mkv"], ["D.mkv"])][0].1) ++
        ": " ++ "denied"] ∧
    (rename_files
        (fun s _ => if s = ["root", "a.mkv"] then some "denied" else none)
        ["root"] [(["a.mkv"], ["A.mkv"]), (["c.mkv"], ["D.mkv"])]
        [("root", "New"), ("S1", "Season 01")]).1.length =
      [(["a.mkv"], ["A.mkv"]), (["c.mkv"], ["D.mkv"])].length +
      [("root", "New"), ("S1", "Season 01")].length ∧
    (rename_files (fun _ _ => none)
        ["root"] [(["a.mkv"], ["A.mkv"]), (["c.mkv"], ["D.mkv"])]
        [("root", "New"), ("S1", "Season 01")]).2.2 = Report.success :=
  c7_error_accumulation
    (fun s _ => if s = ["root", "a.mkv"] then some "denied" else none)
    ["root"] [(["a.mkv"], ["A.mkv"]), (["c.mkv"], ["D.mkv"])]
    [("root", "New"), ("S1", "Season 01")] 0 "denied"
    (by decide) (by decide) (by decide) (by decide) (by decide)

/-! ### splitext and mapExcept lemmas -/

theorem dropWhile_shape {α : Type} (p : α → Bool) (l : List α) :
    l.dropWhile p = [] ∨
    ∃ x t, l.dropWhile p = x :: t ∧ p x = false := by
  induction l with
  | nil => exact Or.inl rfl
  | cons a t ih =>
    by_cases h : p a = true
    · simpa [List.dropWhile_cons, h] using ih
    · right
      exact ⟨a, t, by simp [List.dropWhile_cons, h], by simpa using h⟩

theorem dropWhile_eq_drop {α : Type} (p : α → Bool) (l : List α) :
    l.dropWhile p = l.drop (l.takeWhile p).length := by
  induction l with
  | nil => rfl
  | cons a t ih =>
    by_cases h : p a = true
    · simp [List.dropWhile_cons, List.takeWhile_cons, h, ih]
    · simp [List.dropWhile_cons, List.takeWhile_cons, h]

/-- The two halves of `splitext` reassemble to the input. -/
theorem splitext_concat (cs : List Char) :
    (splitext cs).1 ++ (splitext cs).2 = cs := by
  unfold splitext
  cases hd : cs.reverse.dropWhile (fun c => c != '.') with
  | nil => simp
  | cons x t =>
    have hx : x = '.' := by
      rcases dropWhile_shape (fun c => c != '.') cs.reverse with h | ⟨y, s, hys, hy⟩
      · rw [hd] at h; cases h
      · rw [hd] at hys
        cases hys
        simpa using hy
    by_cases ha : t.all (fun c => c == '.') = true
    · simp [ha]
    · simp only [ha, if_false]
      have hsplit := List.takeWhile_append_dropWhile
        (p := fun c => c != '.') (l := cs.reverse)
      rw [hd, hx] at hsplit
      have : cs = (cs.reverse.takeWhile (fun c => c != '.') ++ '.' :: t).reverse := by
        rw [hsplit, List.reverse_reverse]
      conv_rhs => rw [this]
      simp

theorem mapExcept_ok {α β : Type} {ε : Type} {f : α → Except ε β} {l : List α}
    (h : ∀ a ∈ l, ∃ b, f a = .ok b) : ∃ bs, mapExcept f l = .ok bs := by
  induction l with
  | nil => exact ⟨[], rfl⟩
  | cons a t ih =>
    obtain ⟨b, hb⟩ := h a (by simp)
    obtain ⟨bs, hbs⟩ := ih (fun x hx => h x (by simp [hx]))
    exact ⟨b :: bs, by simp [mapExcept, hb, hbs]⟩

theorem mapExcept_mem {α β : Type} {ε : Type} {f : α → Except ε β} {l : List α}
    {bs : List β} (h : mapExcept f l = .ok bs) :
    ∀ b ∈ bs, ∃ a ∈ l, f a = .ok b := by
  induction l generalizing bs with
  | nil =>
    cases h
    intro b hb
    simp at hb
  | cons a t ih =>
    intro b hb
    unfold mapExcept at h
    cases ha : f a with
    | error e => rw [ha] at h; cases h
    | ok b0 =>
      rw [ha] at h
      cases ht : mapExcept f t with
      | error e => rw [ht] at h; cases h
      | ok bs0 =>
        rw [ht] at h
        cases h
        rcases List.mem_cons.mp hb with rfl | hmem
        · exact ⟨a, by simp, ha⟩
        · obtain ⟨a2, ha2, hfa2⟩ := ih ht b hmem
          exact ⟨a2, by simp [ha2], hfa2⟩

theorem mapExcept_congr {α β : Type} {ε : Type} {f g : α → Except ε β} {l : List α}
    (h : ∀ a ∈ l, f a = g a) : mapExcept f l = mapExcept g l := by
  induction l with
  | nil => rfl
  | cons a t ih =>
    unfold mapExcept
    rw [h a (by simp), ih (fun x hx => h x (by simp [hx]))]

/-! ### get_new_name lemmas -/

/-- When both parsers fail, the per-file name is unchanged. -/
theorem get_new_name_id (c : Client) (f : String)
    (hm : parse_movie f = none) (ht : parse_tv f = none) :
    get_new_name c f = Except.ok f := by
  unfold get_new_name
  rw [hm, ht]

/-- When the search calls never raise, get_new_name never raises. -/
theorem get_new_name_ok (c : Client) (f : String)
    (hm : ∀ t y, ∃ v, c.search_movie t y = Except.ok v)
    (htv : ∀ t, ∃ v, c.search_tv t = Except.ok v) :
    ∃ s, get_new_name c f = Except.ok s := by
  unfold get_new_name
  cases hpm : parse_movie f with
  | some movie =>
    dsimp only
    obtain ⟨v, hv⟩ := hm movie.title movie.year
    rw [hv]
    dsimp only [Except.bind]
    cases v with
    | some r =>
      dsimp only
      by_cases hrd : r.release_date.getD "" ≠ ""
      · exact ⟨_, by rw [if_pos hrd]⟩
      · exact ⟨_, by rw [if_neg hrd]⟩
    | none =>
      cases hy : movie.year with
      | some y => exact ⟨_, rfl⟩
      | none => exact ⟨_, rfl⟩
  | none =>
    dsimp only
    cases hpt : parse_tv f with
    | some tv =>
      dsimp only
      obtain ⟨v, hv⟩ := htv tv.show_name
      rw [hv]
      dsimp only [Except.bind]
      cases v with
      | some r =>
        dsimp only
        by_cases hep : ((match r.id with
            | some i => secondary (c.get_episode_name i tv.season tv.episode)
            | none => none) : Option String).getD "" ≠ ""
        · exact ⟨_, by rw [if_pos hep]⟩
        · exact ⟨_, by rw [if_neg hep]⟩
      | none => exact ⟨_, rfl⟩
    | none => exact ⟨_, rfl⟩

/-- get_new_name reads the client only through search_movie when the movie
parser fires, and only through search_tv / the wrapped episode lookup when
it does not. -/
theorem get_new_name_congr (c₁ c₂ : Client) (f : String)
    (hsm : c₁.search_movie = c₂.search_movie)
    (hstv : c₁.search_tv = c₂.search_tv)
    (hep : ∀ i s e, secondary (c₁.get_episode_name i s e) =
      secondary (c₂.get_episode_name i s e)) :
    get_new_name c₁ f = get_new_name c₂ f := by
  unfold get_new_name
  cases hpm : parse_movie f with
  | some movie => dsimp only; rw [hsm]
  | none =>
    dsimp only
    cases hpt : parse_tv f with
    | some tv =>
      dsimp only
      rw [hstv]
      cases hv : c₂.search_tv tv.show_name with
      | error e => rfl
      | ok v =>
        dsimp only [Except.bind]
        cases v with
        | none => rfl
        | some r =>
          dsimp only
          cases hid : r.id with
          | none => rfl
          | some i => dsimp only; rw [hep i tv.season tv.episode]
    | none => rfl

/-- Every name get_new_name produces carries the original extension: it is
some stem followed by `splitext`'s extension of the input. -/
theorem get_new_name_ext (c : Client) (f nf : String)
    (h : get_new_name c f = Except.ok nf) :
    ∃ stem, nf = stem ++ String.mk (splitext f.data).2 := by
  unfold get_new_name at h
  cases hpm : parse_movie f with
  | some movie =>
    rw [hpm] at h
    dsimp only at h
    cases hv : c.search_movie movie.title movie.year with
    | error e => rw [hv] at h; cases h
    | ok v =>
      rw [hv] at h
      dsimp only [Except.bind] at h
      cases v with
      | some r =>
        dsimp only at h
        by_cases hrd : r.release_date.getD "" ≠ ""
        · rw [if_pos hrd] at h
          cases h
          exact ⟨_, rfl⟩
        · rw [if_neg hrd] at h
          cases h
          exact ⟨_, rfl⟩
      | none =>
        cases hy : movie.year with
        | some y => rw [hy] at h; cases h; exact ⟨_, rfl⟩
        | none => rw [hy] at h; cases h; exact ⟨_, rfl⟩
  | none =>
    rw [hpm] at h
    dsimp only at h
    cases hpt : parse_tv f with
    | some tv =>
      rw [hpt] at h
      dsimp only at h
      cases hv : c.search_tv tv.show_name with
      | error e => rw [hv] at h; cases h
      | ok v =>
        rw [hv] at h
        dsimp only [Except.bind] at h
        cases v with
        | some r =>
          dsimp only at h
          by_cases hepn : ((match r.id with
              | some i => secondary (c.get_episode_name i tv.season tv.episode)
              | none => none) : Option String).getD "" ≠ ""
          · rw [if_pos hepn] at h
            cases h
            exact ⟨_, rfl⟩
          · rw [if_neg hepn] at h
            cases h
            exact ⟨_, rfl⟩
        | none =>
          cases h
          exact ⟨_, rfl⟩
    | none =>
      rw [hpt] at h
      cases h
      refine ⟨String.mk (splitext f.data).1, ?_⟩
      show f = String.mk ((splitext f.data).1 ++ (splitext f.data).2)
      rw [splitext_concat]

/-- C5.  The per-file naming tries parse_movie first and consults the TV path
only when parse_movie returns none; when both parsers return none the entry
is an identity rename.  Branch selection is stated observationally: on a
movie parse the result depends on the client only through search_movie, on a
movie miss only through the TV operations. -/
theorem c5_parser_precedence (c₁ c₂ : Client) (f : String) :
    (parse_movie f = none → parse_tv f = none →
      get_new_name c₁ f = Except.ok f) ∧
    (parse_movie f ≠ none → c₁.search_movie = c₂.search_movie →
      get_new_name c₁ f = get_new_name c₂ f) ∧
    (parse_movie f = none → c₁.search_tv = c₂.search_tv →
      (∀ i s e, secondary (c₁.get_episode_name i s e) =
        secondary (c₂.get_episode_name i s e)) →
      get_new_name c₁ f = get_new_name c₂ f) := by
  refine ⟨fun hm ht => get_new_name_id c₁ f hm ht, ?_, ?_⟩
  · intro hm hsm
    unfold get_new_name
    cases hpm : parse_movie f with
    | some movie => dsimp only; rw [hsm]
    | none => exact absurd hpm hm
  · intro hm hstv hep
    unfold get_new_name
    rw [hm]
    dsimp only
    cases hpt : parse_tv f with
    | some tv =>
      dsimp only
      rw [hstv]
      cases hv : c₂.search_tv tv.show_name with
      | error e => rfl
      | ok v =>
        dsimp only [Except.bind]
        cases v with
        | none => rfl
        | some r =>
          dsimp only
          cases hid : r.id with
          | none => rfl
          | some i => dsimp only; rw [hep i tv.season tv.episode]
    | none => rfl

/-- Witness for C5: `readme.txt` parses as neither movie nor episode and is
left unchanged. -/
theorem c5_parser_precedence_witness :
    get_new_name okClient "readme.txt" = Except.ok "readme.txt" :=
  (c5_parser_precedence okClient okClient "readme.txt").1 (by decide) (by decide)

/-! ### Scan-level lemmas -/

theorem fileEntries_ok (c : Client) (entries : List (List String × List String))
    (hm : ∀ t y, ∃ v, c.search_movie t y = Except.ok v)
    (htv : ∀ t, ∃ v, c.search_tv t = Except.ok v) :
    ∃ bs, fileEntries c entries = Except.ok bs := by
  unfold fileEntries
  have hdir : ∀ e ∈ entries, ∃ b, fileEntriesDir c e.1 e.2 = Except.ok b := by
    intro e _
    unfold fileEntriesDir
    apply mapExcept_ok
    intro f _
    obtain ⟨s, hs⟩ := get_new_name_ok c f hm htv
    exact ⟨_, by rw [hs]; rfl⟩
  obtain ⟨bs, hbs⟩ := mapExcept_ok hdir
  exact ⟨bs.flatten, by rw [hbs]; rfl⟩

theorem movieFolderEntries_ok (c : Client) (base f0 : String)
    (hm : ∀ t y, ∃ v, c.search_movie t y = Except.ok v) :
    ∃ fl, movieFolderEntries c base f0 = Except.ok fl := by
  unfold movieFolderEntries
  cases hpm : parse_movie f0 with
  | none => exact ⟨[], rfl⟩
  | some movie =>
    dsimp only
    obtain ⟨v, hv⟩ := hm movie.title movie.year
    exact ⟨_, by rw [hv]; rfl⟩

theorem tvFolderEntries_ok (c : Client) (base : String)
    (entries : List (List String × List String))
    (htv : ∀ t, ∃ v, c.search_tv t = Except.ok v) :
    ∃ fl, tvFolderEntries c base entries = Except.ok fl := by
  unfold tvFolderEntries
  cases hft : findFirst parse_tv entries with
  | none => exact ⟨[], rfl⟩
  | some tv =>
    dsimp only
    obtain ⟨v, hv⟩ := htv tv.show_name
    exact ⟨_, by rw [hv]; rfl⟩

/-- C6.  Search failures propagate uncaught out of the scan (both in the
single-movie and the show branch), while secondary lookups are wrapped:
a scan with error-free searches always succeeds, and the scan result only
depends on the secondary lookups through their caught interpretation
(an error is the field being absent). -/
theorem c6_search_failure_asymmetry (c c₂ : Client) (base : String) (d : Dir) :
    ((∀ t y, ∃ v, c.search_movie t y = Except.ok v) →
     (∀ t, ∃ v, c.search_tv t = Except.ok v) →
      ∃ r, scan_folder c base d = Except.ok r) ∧
    (∀ f0 m e, d.subdirs = [] → d.files = [f0] → parse_movie f0 = some m →
      c.search_movie m.title m.year = Except.error e →
      scan_folder c base d = Except.error e) ∧
    (∀ tv e, (d.subdirs.isEmpty && d.files.length == 1) = false →
      findFirst parse_tv (walk d) = some tv →
      c.search_tv tv.show_name = Except.error e →
      scan_folder c base d = Except.error e) ∧
    (c.search_movie = c₂.search_movie → c.search_tv = c₂.search_tv →
     (∀ i, secondary (c.get_movie_imdb_id i) = secondary (c₂.get_movie_imdb_id i)) →
     (∀ i, secondary (c.get_tv_imdb_id i) = secondary (c₂.get_tv_imdb_id i)) →
     (∀ i s e, secondary (c.get_episode_name i s e) =
       secondary (c₂.get_episode_name i s e)) →
      scan_folder c base d = scan_folder c₂ base d) := by
  refine ⟨?_, ?_, ?_, ?_⟩
  · -- error-free searches: the scan always succeeds
    intro hm htv
    unfold scan_folder
    obtain ⟨bs, hbs⟩ := fileEntries_ok c (walk d) hm htv
    by_cases hb : (d.subdirs.isEmpty && d.files.length == 1) = true
    · simp only [hb, if_true]
      cases hfs : d.files with
      | nil => exact ⟨_, by dsimp only; rw [hbs]; rfl⟩
      | cons f0 t =>
        cases t with
        | nil =>
          obtain ⟨fl, hfl⟩ := movieFolderEntries_ok c base f0 hm
          exact ⟨_, by dsimp only; rw [hfl, hbs]; rfl⟩
        | cons f1 t2 => exact ⟨_, by dsimp only; rw [hbs]; rfl⟩
    · simp only [hb, if_false]
      obtain ⟨fl, hfl⟩ := tvFolderEntries_ok c base (walk d) htv
      exact ⟨_, by rw [hfl, hbs]; rfl⟩
  · -- single-movie branch: a raised movie search aborts the scan
    intro f0 m e hsub hfs hpm herr
    unfold scan_folder
    have hb : (d.subdirs.isEmpty && d.files.length == 1) = true := by
      rw [hsub, hfs]; rfl
    simp only [hfs] at hb ⊢
    simp only [hb, if_true]
    unfold movieFolderEntries
    rw [hpm]
    dsimp only
    rw [herr]
    rfl
  · -- show branch: a raised show search aborts the scan
    intro tv e hb hft herr
    unfold scan_folder
    simp only [hb, if_false]
    unfold tvFolderEntries
    rw [hft]
    dsimp only
    rw [herr]
    rfl
  · -- secondary lookups only matter through their caught interpretation
    intro hsm hstv hmid htid hepn
    unfold scan_folder
    have hfe : fileEntries c (walk d) = fileEntries c₂ (walk d) := by
      unfold fileEntries
      rw [mapExcept_congr (g := fun e => fileEntriesDir c₂ e.1 e.2) ?_]
      intro a _
      unfold fileEntriesDir
      exact mapExcept_congr (fun f _ => by
        rw [get_new_name_congr c c₂ f hsm hstv hepn])
    have hfl : (if d.subdirs.isEmpty && d.files.length == 1 then
          match d.files with
          | [f0] => movieFolderEntries c base f0
          | _ => Except.ok []
        else tvFolderEntries c base (walk d)) =
        (if d.subdirs.isEmpty && d.files.length == 1 then
          match d.files with
          | [f0] => movieFolderEntries c₂ base f0
          | _ => Except.ok []
        else tvFolderEntries c₂ base (walk d)) := by
      by_cases hb : (d.subdirs.isEmpty && d.files.length == 1) = true
      · simp only [hb, if_true]
        cases hfs : d.files with
        | nil => rfl
        | cons f0 t =>
          cases t with
          | cons f1 t2 => rfl
          | nil =>
            dsimp only
            unfold movieFolderEntries
            cases hpm : parse_movie f0 with
            | none => rfl
            | some movie =>
              dsimp only
              rw [hsm]
              cases hv : c₂.search_movie movie.title movie.year with
              | error e => rfl
              | ok v =>
                dsimp only [Except.map]
                cases v with
                | none => rfl
                | some r => dsimp only; rw [hmid r.id]
      · have hbf : (d.subdirs.isEmpty && d.files.length == 1) = false := by
          rw [Bool.not_eq_true] at hb; exact hb
        simp only [hbf, Bool.false_eq_true, if_false]
        unfold tvFolderEntries
        cases hft : findFirst parse_tv (walk d) with
        | none => rfl
        | some tv =>
          dsimp only
          rw [hstv]
          cases hv : c₂.search_tv tv.show_name with
          | error e => rfl
          | ok v =>
            dsimp only [Except.map]
            cases v with
            | none => rfl
            | some r =>
              dsimp only
              cases hid : r.id with
              | none => rfl
              | some i =>
                dsimp only
                by_cases hz : i ≠ 0
                · rw [if_pos hz, if_pos hz, htid i]
                · rw [if_neg hz, if_neg hz]
    dsimp only
    rw [hfl, hfe]

/-- Witness for C6: a raised show search aborts a concrete show-layout scan. -/
theorem c6_search_failure_asymmetry_witness :
    scan_folder tvErrClient "MyShow" showTree = Except.error "boom" :=
  (c6_search_failure_asymmetry tvErrClient tvErrClient "MyShow" showTree).2.2.1
    ⟨"Show", 1, 1⟩ "boom" (by decide) (by decide) rfl

/-! ### C2: position of the root entry in the folder sequence -/

/-- C2 corrected: whenever the scan emits any folder entries, the root entry
(old name = the root's base name) is the FIRST element of the folder
sequence, and every following entry is a season entry. -/
theorem c2_root_entry_first (c : Client) (base : String) (d : Dir)
    (fl : List (String × String)) (fs : List (List String × List String))
    (h : scan_folder c base d = Except.ok (fl, fs)) :
    fl = [] ∨ ∃ nm rest, fl = (base, nm) :: rest ∧
      ∀ p ∈ rest, ∃ n, p.2 = "Season " ++ pad2 n := by
  unfold scan_folder at h
  dsimp only at h
  by_cases hb : (d.subdirs.isEmpty && d.files.length == 1) = true
  · rw [if_pos hb] at h
    cases hfs : d.files with
    | nil =>
      rw [hfs] at h
      dsimp only at h
      cases hfe : fileEntries c (walk d) with
      | error e => rw [hfe] at h; cases h
      | ok bs =>
        rw [hfe] at h
        cases h
        exact Or.inl rfl
    | cons f0 t =>
      cases t with
      | cons f1 t2 =>
        rw [hfs] at h
        dsimp only at h
        cases hfe : fileEntries c (walk d) with
        | error e => rw [hfe] at h; cases h
        | ok bs =>
          rw [hfe] at h
          cases h
          exact Or.inl rfl
      | nil =>
        rw [hfs] at h
        dsimp only at h
        unfold movieFolderEntries at h
        cases hpm : parse_movie f0 with
        | none =>
          rw [hpm] at h
          dsimp only [Except.bind] at h
          cases hfe : fileEntries c (walk d) with
          | error e => rw [hfe] at h; cases h
          | ok bs =>
            rw [hfe] at h
            cases h
            exact Or.inl rfl
        | some movie =>
          rw [hpm] at h
          dsimp only at h
          cases hv : c.search_movie movie.title movie.year with
          | error e => rw [hv] at h; cases h
          | ok v =>
            rw [hv] at h
            dsimp only [Except.map, Except.bind] at h
            cases hfe : fileEntries c (walk d) with
            | error e => rw [hfe] at h; cases h
            | ok bs =>
              rw [hfe] at h
              dsimp only [Except.map] at h
              cases v with
              | none =>
                cases h
                exact Or.inl rfl
              | some r =>
                cases h
                exact Or.inr ⟨_, [], rfl, by simp⟩
  · rw [if_neg hb] at h
    unfold tvFolderEntries at h
    cases hft : findFirst parse_tv (walk d) with
    | none =>
      rw [hft] at h
      dsimp only [Except.bind] at h
      cases hfe : fileEntries c (walk d) with
      | error e => rw [hfe] at h; cases h
      | ok bs =>
        rw [hfe] at h
        cases h
        exact Or.inl rfl
    | some tv =>
      rw [hft] at h
      dsimp only at h
      cases hv : c.search_tv tv.show_name with
      | error e => rw [hv] at h; cases h
      | ok v =>
        rw [hv] at h
        dsimp only [Except.map, Except.bind] at h
        cases hfe : fileEntries c (walk d) with
        | error e => rw [hfe] at h; cases h
        | ok bs =>
          rw [hfe] at h
          dsimp only [Except.map] at h
          cases h
          refine Or.inr ⟨_, _, rfl, ?_⟩
          intro p hp
          obtain ⟨q, _, rfl⟩ := List.mem_map.mp hp
          exact ⟨q.2, rfl⟩

/-- Witness for C2's corrected claim, at a concrete show scan. -/
theorem c2_root_entry_first_witness :
    ([("MyShow", "Show"), ("S1", "Season 01")] : List (String × String)) = [] ∨
    ∃ nm rest,
      ([("MyShow", "Show"), ("S1", "Season 01")] : List (String × String)) =
        ("MyShow", nm) :: rest ∧
      ∀ p ∈ rest, ∃ n, p.2 = "Season " ++ pad2 n :=
  c2_root_entry_first (showClient "Pilot") "MyShow" showTree
    [("MyShow", "Show"), ("S1", "Season 01")]
    [(["S1", "Show.S01E01.mkv"], ["S1", "Show - S01E01 - Pilot.mkv"])]
    rfl

/-- Counterexample to C2 as stated: this scan emits the root entry at the
head of the folder sequence, with the season entry after it, so the root
entry does not occupy the last position. -/
theorem c2_counterexample :
    scan_folder (showClient "Pilot") "MyShow" showTree =
      Except.ok ([("MyShow", "Show"), ("S1", "Season 01")],
        [(["S1", "Show.S01E01.mkv"], ["S1", "Show - S01E01 - Pilot.mkv"])]) ∧
    ([("MyShow", "Show"), ("S1", "Season 01")] : List (String × String)).getLast?
      = some ("S1", "Season 01") ∧
    ("S1", "Season 01") ≠ ("MyShow", "Show") := by
  refine ⟨rfl, by decide, by decide⟩

/-! ### C10: file renames stay in place and keep the extension -/

theorem fileEntries_mem (c : Client) (entries : List (List String × List String))
    (bs : List (List String × List String))
    (h : fileEntries c entries = Except.ok bs) :
    ∀ p ∈ bs, ∃ rel f nf, p = (rel ++ [f], rel ++ [nf]) ∧
      get_new_name c f = Except.ok nf := by
  unfold fileEntries at h
  cases hME : mapExcept (fun e => fileEntriesDir c e.1 e.2) entries with
  | error e => rw [hME] at h; cases h
  | ok bss =>
    rw [hME] at h
    cases h
    intro p hp
    rw [List.mem_flatten] at hp
    obtain ⟨l, hl, hpl⟩ := hp
    obtain ⟨a, _, hfa⟩ := mapExcept_mem hME l hl
    unfold fileEntriesDir at hfa
    obtain ⟨f, _, hgf⟩ := mapExcept_mem hfa p hpl
    cases hg : get_new_name c f with
    | error e => rw [hg] at hgf; cases hgf
    | ok nf =>
      rw [hg] at hgf
      cases hgf
      exact ⟨a.1, f, nf, rfl, hg⟩

theorem scan_fileEntries (c : Client) (base : String) (d : Dir)
    (fl : List (String × String)) (fs : List (List String × List String))
    (h : scan_folder c base d = Except.ok (fl, fs)) :
    fileEntries c (walk d) = Except.ok fs := by
  unfold scan_folder at h
  dsimp only at h
  cases hF : (if d.subdirs.isEmpty && d.files.length == 1 then
      match d.files with
      | [f0] => movieFolderEntries c base f0
      | _ => Except.ok []
    else tvFolderEntries c base (walk d)) with
  | error e => rw [hF] at h; cases h
  | ok fl2 =>
    rw [hF] at h
    dsimp only [Except.bind] at h
    cases hfe : fileEntries c (walk d) with
    | error e => rw [hfe] at h; cases h
    | ok bs =>
      rw [hfe] at h
      cases h
      rfl

/-- C10.  Every file entry a scan produces keeps its directory (the new
relative path has the same components except the last) and its base name
keeps the original extension: the new base name is some stem followed by
the `splitext` extension of the old base name. -/
theorem c10_rename_frame (c : Client) (base : String) (d : Dir)
    (fl : List (String × String)) (fs : List (List String × List String))
    (h : scan_folder c base d = Except.ok (fl, fs)) :
    ∀ p ∈ fs, p.1.dropLast = p.2.dropLast ∧
      ∃ old nf stem, p.1.getLast? = some old ∧ p.2.getLast? = some nf ∧
        nf = stem ++ String.mk (splitext old.data).2 := by
  intro p hp
  obtain ⟨rel, f, nf, rfl, hg⟩ :=
    fileEntries_mem c (walk d) fs (scan_fileEntries c base d fl fs h) p hp
  obtain ⟨stem, hstem⟩ := get_new_name_ext c f nf hg
  refine ⟨by simp, f, nf, stem, ?_, ?_, hstem⟩
  · simp
  · simp

/-- Witness for C10 at a concrete show scan. -/
theorem c10_rename_frame_witness :
    (["S1", "Show.S01E01.mkv"] : List String).dropLast =
      (["S1", "Show - S01E01 - Pilot.mkv"] : List String).dropLast ∧
    ∃ old nf stem,
      (["S1", "Show.S01E01.mkv"] : List String).getLast? = some old ∧
      (["S1", "Show - S01E01 - Pilot.mkv"] : List String).getLast? = some nf ∧
      nf = stem ++ String.mk (splitext old.data).2 :=
  c10_rename_frame (showClient "Pilot") "MyShow" showTree
    [("MyShow", "Show"), ("S1", "Season 01")]
    [(["S1", "Show.S01E01.mkv"], ["S1", "Show - S01E01 - Pilot.mkv"])] rfl
    (["S1", "Show.S01E01.mkv"], ["S1", "Show - S01E01 - Pilot.mkv"])
    (List.mem_singleton.mpr rfl)

/-! ### C9: character-class facts and no-match lemmas -/

theorem isAlpha_toNat {c : Char} (h : c.isAlpha = true) :
    (65 ≤ c.toNat ∧ c.toNat ≤ 90) ∨ (97 ≤ c.toNat ∧ c.toNat ≤ 122) := by
  simp only [Char.isAlpha, Char.isUpper, Char.isLower, Bool.or_eq_true,
    Bool.and_eq_true, decide_eq_true_eq] at h
  rcases h with ⟨h1, h2⟩ | ⟨h1, h2⟩
  · exact Or.inl ⟨h1, h2⟩
  · exact Or.inr ⟨h1, h2⟩

theorem alpha_not_dig {c : Char} (h : c.isAlpha = true) : isDig c = false := by
  rcases isAlpha_toNat h with ⟨h1, h2⟩ | ⟨h1, h2⟩ <;>
  · rw [Bool.eq_false_iff]
    intro hd
    rcases isDig_iff.mp hd with ⟨d1, d2⟩
    omega

theorem dig_not_isS {c : Char} (h : isDig c = true) : isS c = false := by
  rcases isDig_iff.mp h with ⟨h1, h2⟩
  rw [Bool.eq_false_iff]
  intro hs
  simp only [isS, Bool.or_eq_true, beq_iff_eq, char_eq_iff_toNat,
    show ('S').toNat = 83 from rfl, show ('s').toNat = 115 from rfl] at hs
  omega

theorem dig_not_tokSep {c : Char} (h : isDig c = true) : tokSep c = false := by
  rcases isDig_iff.mp h with ⟨h1, h2⟩
  rw [Bool.eq_false_iff]
  intro hs
  simp only [tokSep, Char.isWhitespace, Bool.or_eq_true, beq_iff_eq,
    decide_eq_true_eq, char_eq_iff_toNat, show ('.').toNat = 46 from rfl,
    show (' ').toNat = 32 from rfl, show ('\t').toNat = 9 from rfl,
    show ('\x0d').toNat = 13 from rfl, show ('\n').toNat = 10 from rfl] at hs
  omega

theorem alpha_not_tokSep {c : Char} (h : c.isAlpha = true) : tokSep c = false := by
  have hb := isAlpha_toNat h
  rw [Bool.eq_false_iff]
  intro hs
  simp only [tokSep, Char.isWhitespace, Bool.or_eq_true, beq_iff_eq,
    decide_eq_true_eq, char_eq_iff_toNat, show ('.').toNat = 46 from rfl,
    show (' ').toNat = 32 from rfl, show ('\t').toNat = 9 from rfl,
    show ('\x0d').toNat = 13 from rfl, show ('\n').toNat = 10 from rfl] at hs
  rcases hb with ⟨h1, h2⟩ | ⟨h1, h2⟩ <;> omega

/-- A successful head match of the episode marker needs an S-letter followed
by a digit. -/
theorem matchSE_shape {cs : List Char} (h : matchSE cs ≠ none) :
    ∃ a b t, cs = a :: b :: t ∧ isS a = true ∧ isDig b = true := by
  match cs with
  | [] => exact absurd rfl h
  | [a] => exact absurd rfl h
  | a :: b :: t =>
    refine ⟨a, b, t, rfl, ?_, ?_⟩ <;>
    · by_contra hg
      rw [Bool.not_eq_true] at hg
      apply h
      unfold matchSE
      simp [hg]

theorem sepSE_noneL (cs : List Char)
    (H : ∀ t, t <:+ cs → matchSE t = none) : sepSE cs = none := by
  induction cs with
  | nil => rfl
  | cons c rest ih =>
    unfold sepSE
    by_cases hc : sepClass c = true
    · rw [if_pos hc]
      rw [ih (fun t ht => H t (ht.trans (List.suffix_cons c rest)))]
      exact H rest (List.suffix_cons c rest)
    · rw [if_neg hc]

theorem findSE_noneL (cs : List Char)
    (H : ∀ t, t <:+ cs → matchSE t = none) :
    ∀ acc, findSE acc cs = none := by
  induction cs with
  | nil => intro acc; rfl
  | cons c rest ih =>
    intro acc
    unfold findSE
    by_cases hc : c = '\n'
    · rw [if_pos hc]
    · rw [if_neg hc]
      rw [sepSE_noneL rest (fun t ht => H t (ht.trans (List.suffix_cons c rest)))]
      exact ih (fun t ht => H t (ht.trans (List.suffix_cons c rest))) _

theorem searchTV_noneL (cs : List Char)
    (H : ∀ t, t <:+ cs → matchSE t = none) : searchTV cs = none := by
  induction cs with
  | nil => rfl
  | cons c rest ih =>
    unfold searchTV
    rw [findSE_noneL (c :: rest) H []]
    exact ih (fun t ht => H t (ht.trans (List.suffix_cons c rest)))

/-- If no S-letter in `cs` is immediately followed by a digit, the episode
pattern has no match anywhere in `cs`. -/
theorem searchTV_none_of_no_adj (cs : List Char)
    (H : ∀ l a b r, cs = l ++ a :: b :: r → isS a = true → isDig b = false) :
    searchTV cs = none := by
  apply searchTV_noneL
  intro t ht
  by_contra hne
  obtain ⟨a, b, r, rfl, ha, hb⟩ := matchSE_shape hne
  obtain ⟨l, rfl⟩ := ht
  rw [H l a b r rfl ha] at hb
  cases hb

theorem not_dot_of_not_tokSep {c : Char} (h : tokSep c = false) :
    (c != '.') = true := by
  simp only [tokSep, Bool.or_eq_false_iff] at h
  simp [bne, h.1]

theorem tokE_noSep (cs : List Char) (h : ∀ c ∈ cs, tokSep c = false) :
    tokE cs = [cs] := by
  induction cs with
  | nil => rfl
  | cons c rest ih =>
    unfold tokE
    rw [h c (by simp)]
    simp only [Bool.false_eq_true, if_false]
    rw [ih (fun x hx => h x (by simp [hx]))]

theorem dropWhile_append_all {p : Char → Bool} {l1 l2 : List Char}
    (h : ∀ c ∈ l1, p c = true) :
    (l1 ++ l2).dropWhile p = l2.dropWhile p := by
  induction l1 with
  | nil => rfl
  | cons c rest ih =>
    rw [List.cons_append, List.dropWhile_cons, h c (by simp)]
    simp only [if_true]
    exact ih (fun x hx => h x (by simp [hx]))

theorem takeWhile_append_all {p : Char → Bool} {l1 l2 : List Char}
    (h : ∀ c ∈ l1, p c = true) :
    (l1 ++ l2).takeWhile p = l1 ++ l2.takeWhile p := by
  induction l1 with
  | nil => rfl
  | cons c rest ih =>
    rw [List.cons_append, List.takeWhile_cons, h c (by simp)]
    simp only [if_true, List.cons_append]
    rw [ih (fun x hx => h x (by simp [hx]))]

/-- splitext on `base ++ '.' :: e` with a dot-free nonempty base and
dot-free e: the extension is `'.' :: e`. -/
theorem splitext_app (base e : List Char) (hb : ∀ c ∈ base, (c != '.') = true)
    (he : ∀ c ∈ e, (c != '.') = true) (hne : base ≠ []) :
    splitext (base ++ '.' :: e) = (base, '.' :: e) := by
  have hrev : (base ++ '.' :: e).reverse = e.reverse ++ '.' :: base.reverse := by
    simp
  have hwd : (base ++ '.' :: e).reverse.dropWhile (fun c => c != '.') =
      '.' :: base.reverse := by
    rw [hrev, dropWhile_append_all (fun c hc => he c (by simpa using hc))]
    rw [List.dropWhile_cons]
    simp
  have hwt : (base ++ '.' :: e).reverse.takeWhile (fun c => c != '.') =
      e.reverse := by
    rw [hrev, takeWhile_append_all (fun c hc => he c (by simpa using hc))]
    rw [List.takeWhile_cons]
    simp
  unfold splitext
  rw [hwd, hwt]
  have hall : (base.reverse.all (fun c => c == '.')) = false := by
    rw [Bool.eq_false_iff]
    intro hall
    cases base with
    | nil => exact hne rfl
    | cons b bt =>
      have hbmem : b ∈ (b :: bt).reverse := by simp
      have := List.all_eq_true.mp hall b hbmem
      have hbne := hb b (by simp)
      simp only [beq_iff_eq] at this
      simp [this] at hbne
  dsimp only
  rw [hall]
  simp

/-- Shape of the tokens of `t ++ ' ' :: rest` when `t` is letters and spaces
and `rest` is a nonempty run with no separator characters: a (possibly
empty) all-letter first token, and every later token is empty, all-letters,
or the final `rest` run itself. -/
theorem tokE_shape (t : List Char) (ht : ∀ c ∈ t, c.isAlpha = true ∨ c = ' ')
    (rest : List Char) (hr : ∀ c ∈ rest, tokSep c = false) :
    ∃ first more, tokE (t ++ ' ' :: rest) = first :: more ∧
      (∀ c ∈ first, c.isAlpha = true) ∧
      ∀ tok ∈ more, tok = [] ∨ (∀ c ∈ tok, c.isAlpha = true) ∨ tok = rest := by
  induction t with
  | nil =>
    refine ⟨[], [rest], ?_, by simp, ?_⟩
    · show tokE (' ' :: rest) = [[], rest]
      unfold tokE
      rw [show tokSep ' ' = true from rfl]
      simp only [if_true]
      cases hrest : rest with
      | nil => rfl
      | cons r rs =>
        dsimp only
        rw [hr r (by simp [hrest])]
        simp only [Bool.false_eq_true, if_false]
        rw [← hrest, tokE_noSep rest hr]
    · intro tok htok
      simp at htok
      exact Or.inr (Or.inr htok)
  | cons c t2 ih =>
    obtain ⟨first, more, heq, hfirst, hmore⟩ :=
      ih (fun x hx => ht x (by simp [hx]))
    rcases ht c (by simp) with hca | hcs
    · -- a letter extends the first token
      refine ⟨c :: first, more, ?_, ?_, hmore⟩
      · rw [List.cons_append]
        unfold tokE
        rw [alpha_not_tokSep hca]
        simp only [Bool.false_eq_true, if_false]
        rw [heq]
      · intro x hx
        rcases List.mem_cons.mp hx with rfl | hx2
        · exact hca
        · exact hfirst x hx2
    · -- a space: either absorbed into the following run or closing a token
      subst hcs
      rw [List.cons_append]
      unfold tokE
      rw [show tokSep ' ' = true from rfl]
      simp only [if_true]
      cases ht2 : t2 with
      | nil =>
        refine ⟨first, more, ?_, hfirst, hmore⟩
        rw [ht2] at heq
        simp only [List.nil_append] at heq ⊢
        rw [show tokSep ' ' = true from rfl]
        simp only [if_true]
        exact heq
      | cons c2 t3 =>
        rcases ht c2 (by simp [ht2]) with hc2a | hc2s
        · refine ⟨[], first :: more, ?_, by simp, ?_⟩
          · rw [ht2] at heq
            simp only [List.cons_append]
            rw [alpha_not_tokSep hc2a]
            simp only [Bool.false_eq_true, if_false]
            rw [← List.cons_append, heq]
          · intro tok htok
            rcases List.mem_cons.mp htok with rfl | hx2
            · exact Or.inr (Or.inl hfirst)
            · exact hmore tok hx2
        · subst hc2s
          refine ⟨first, more, ?_, hfirst, hmore⟩
          rw [ht2] at heq
          simp only [List.cons_append]
          rw [show tokSep ' ' = true from rfl]
          simp only [if_true]
          rw [← List.cons_append, heq]

theorem isYearTok_head {tok : List Char} (h : isYearTok tok = true) :
    ∃ a b c d, tok = [a, b, c, d] ∧ (a = '1' ∨ a = '2') := by
  match tok with
  | [a, b, c, d] =>
    refine ⟨a, b, c, d, rfl, ?_⟩
    simp only [isYearTok, Bool.and_eq_true, Bool.or_eq_true, beq_iff_eq] at h
    rcases h.1.1 with ⟨h1, _⟩ | ⟨h1, _⟩
    · exact Or.inl h1
    · exact Or.inr h1
  | [] => cases h
  | [a] => cases h
  | [a, b] => cases h
  | [a, b, c] => cases h
  | a :: b :: c :: d :: e :: r => cases h

theorem isResTok_head {tok : List Char} (h : isResTok tok = true) :
    ∃ a rem, tok = a :: rem ∧ (a = '4' ∨ isDig a = true) := by
  match tok with
  | [a, k] =>
    refine ⟨a, [k], rfl, Or.inl ?_⟩
    simp only [isResTok, Bool.and_eq_true, beq_iff_eq] at h
    exact h.1
  | [a, b, c, p] =>
    refine ⟨a, [b, c, p], rfl, Or.inr ?_⟩
    simp only [isResTok, Bool.and_eq_true] at h
    exact h.1.1.1
  | [a, b, c, d, p] =>
    refine ⟨a, [b, c, d, p], rfl, Or.inr ?_⟩
    simp only [isResTok, Bool.and_eq_true] at h
    exact h.1.1.1.1
  | [] => cases h
  | [a] => cases h
  | [a, b, c] => cases h
  | a :: b :: c :: d :: e :: f :: r => cases h

theorem yearScan_none {ts : List (List Char)}
    (h : ∀ tok ∈ ts, isYearTok tok = false) : yearScan ts = none := by
  induction ts with
  | nil => rfl
  | cons tok rest ih =>
    unfold yearScan
    rw [h tok (by simp)]
    simp only [Bool.false_eq_true, if_false]
    rw [ih (fun x hx => h x (by simp [hx]))]
    rfl

/-- No S-letter immediately followed by a digit occurs in a movie-form base
name built from a letters-and-spaces title and a digit year. -/
theorem movie_form_no_adj (t w : List Char)
    (ht : ∀ ch ∈ t, ch.isAlpha = true ∨ ch = ' ')
    (hw : ∀ ch ∈ w, isDig ch = true) :
    ∀ l a b r, t ++ ' ' :: '(' :: (w ++ [')']) = l ++ a :: b :: r →
      isS a = true → isDig b = false := by
  induction t with
  | nil =>
    intro l a b r heq hS
    exfalso
    have hmem : a ∈ ' ' :: '(' :: (w ++ [')']) := by
      rw [show (' ' :: '(' :: (w ++ [')'])) =
        ([] : List Char) ++ ' ' :: '(' :: (w ++ [')']) from rfl, heq]
      simp
    have : isS a = false := by
      rcases List.mem_cons.mp hmem with rfl | hmem2
      · rfl
      rcases List.mem_cons.mp hmem2 with rfl | hmem3
      · rfl
      rcases List.mem_append.mp hmem3 with hw2 | hp
      · exact dig_not_isS (hw a hw2)
      · simp at hp
        subst hp
        rfl
    rw [this] at hS
    cases hS
  | cons c t2 ih =>
    intro l a b r heq hS
    cases l with
    | nil =>
      simp only [List.cons_append, List.nil_append] at heq
      have h2 := (List.cons.inj heq).2
      -- b is the head of t2 ++ ' ' :: ...
      cases ht2 : t2 with
      | nil =>
        rw [ht2] at h2
        simp only [List.nil_append] at h2
        have hb := (List.cons.inj h2).1
        rw [← hb]
        rfl
      | cons c2 t3 =>
        rw [ht2] at h2
        simp only [List.cons_append] at h2
        have hb := (List.cons.inj h2).1
        rw [← hb]
        rcases ht c2 (by simp [ht2]) with hc2a | hc2s
        · exact alpha_not_dig hc2a
        · subst hc2s
          rfl
    | cons lc l2 =>
      simp only [List.cons_append] at heq
      exact ih (fun x hx => ht x (by simp [hx])) l2 a b r (List.cons.inj heq).2 hS

/-- C9 corrected: a movie-form name whose title is letters and spaces, whose
year part is digits, and whose extension holds no further dot is a fixed
point of the per-file naming: both parsers return none and the entry is an
identity rename. -/
theorem c9_movie_form_stable (c : Client) (t w e : List Char)
    (ht : ∀ ch ∈ t, ch.isAlpha = true ∨ ch = ' ')
    (hw : ∀ ch ∈ w, isDig ch = true)
    (he : ∀ ch ∈ e, (ch != '.') = true) :
    parse_movie (movieFormName t w e) = none ∧
    parse_tv (movieFormName t w e) = none ∧
    get_new_name c (movieFormName t w e) = Except.ok (movieFormName t w e) := by
  have hbnd : ∀ ch ∈ movieFormBase t w, (ch != '.') = true := by
    intro ch hch
    unfold movieFormBase at hch
    rcases List.mem_append.mp hch with h1 | h2
    · rcases ht ch h1 with ha | hs
      · exact not_dot_of_not_tokSep (alpha_not_tokSep ha)
      · subst hs; rfl
    · rcases List.mem_cons.mp h2 with rfl | h3
      · rfl
      rcases List.mem_cons.mp h3 with rfl | h4
      · rfl
      rcases List.mem_append.mp h4 with h5 | h6
      · exact not_dot_of_not_tokSep (dig_not_tokSep (hw ch h5))
      · simp at h6; subst h6; rfl
  have hne : movieFormBase t w ≠ [] := by
    unfold movieFormBase; cases t <;> simp
  have hsplit : splitext ((movieFormName t w e).data) = (movieFormBase t w, '.' :: e) := by
    show splitext (movieFormBase t w ++ '.' :: e) = (movieFormBase t w, '.' :: e)
    exact splitext_app (movieFormBase t w) e hbnd he hne
  have hr0 : ∀ ch ∈ ('(' :: (w ++ [')']) : List Char), tokSep ch = false := by
    intro ch hch
    rcases List.mem_cons.mp hch with rfl | h2
    · rfl
    rcases List.mem_append.mp h2 with h3 | h4
    · exact dig_not_tokSep (hw ch h3)
    · simp at h4; subst h4; rfl
  obtain ⟨first, more, htok, hfirst, hmore⟩ := tokE_shape t ht ('(' :: (w ++ [')'])) hr0
  have hyear : ∀ tok ∈ first :: more, isYearTok tok = false := by
    intro tok htokmem
    rw [Bool.eq_false_iff]
    intro hy
    obtain ⟨a, b2, c2, d2, rfl, hhead⟩ := isYearTok_head hy
    rcases List.mem_cons.mp htokmem with rfl | hmem2
    · have := hfirst a (by simp)
      rcases hhead with rfl | rfl <;> exact absurd this (by decide)
    · rcases hmore _ hmem2 with habs | hall | hrest
      · cases habs
      · have := hall a (by simp)
        rcases hhead with rfl | rfl <;> exact absurd this (by decide)
      · have := (List.cons.inj hrest).1
        rcases hhead with rfl | rfl <;> cases this
  have hres : ∀ tok ∈ first :: more, isResTok tok = false := by
    intro tok htokmem
    rw [Bool.eq_false_iff]
    intro hy
    obtain ⟨a, rem, rfl, hhead⟩ := isResTok_head hy
    rcases List.mem_cons.mp htokmem with rfl | hmem2
    · have := hfirst a (by simp)
      rcases hhead with rfl | hdig
      · exact absurd this (by decide)
      · rw [alpha_not_dig this] at hdig; cases hdig
    · rcases hmore _ hmem2 with habs | hall | hrest
      · cases habs
      · have := hall a (by simp)
        rcases hhead with rfl | hdig
        · exact absurd this (by decide)
        · rw [alpha_not_dig this] at hdig; cases hdig
      · have ha := (List.cons.inj hrest).1
        subst ha
        rcases hhead with hp | hdig
        · cases hp
        · cases hdig
  have hpm : parse_movie (movieFormName t w e) = none := by
    unfold parse_movie
    rw [hsplit]
    dsimp only
    have hbase : movieFormBase t w = t ++ ' ' :: '(' :: (w ++ [')']) := rfl
    rw [hbase, htok]
    rw [yearScan_none hyear]
    cases hm2 : more with
    | nil => rfl
    | cons t1 more2 =>
      dsimp only
      rw [hres t1 (by simp [hm2])]
      rfl
  have hpt : parse_tv (movieFormName t w e) = none := by
    unfold parse_tv
    rw [hsplit]
    dsimp only
    have hbase : movieFormBase t w = t ++ ' ' :: '(' :: (w ++ [')']) := rfl
    rw [hbase, searchTV_none_of_no_adj _ (movie_form_no_adj t w ht hw)]
  exact ⟨hpm, hpt, get_new_name_id c _ hpm hpt⟩

/-- Witness for C9's corrected claim: `"Title (2010).mkv"` is left unchanged. -/
theorem c9_movie_form_stable_witness :
    parse_movie (movieFormName ['T', 'i', 't', 'l', 'e'] ['2', '0', '1', '0']
      ['m', 'k', 'v']) = none ∧
    parse_tv (movieFormName ['T', 'i', 't', 'l', 'e'] ['2', '0', '1', '0']
      ['m', 'k', 'v']) = none ∧
    get_new_name okClient (movieFormName ['T', 'i', 't', 'l', 'e'] ['2', '0', '1', '0']
      ['m', 'k', 'v']) =
      Except.ok (movieFormName ['T', 'i', 't', 'l', 'e'] ['2', '0', '1', '0']
        ['m', 'k', 'v']) :=
  c9_movie_form_stable okClient ['T', 'i', 't', 'l', 'e'] ['2', '0', '1', '0']
    ['m', 'k', 'v'] (by decide) (by decide) (by decide)

/-- Counterexample to C9 as stated: under an unchanged catalog whose episode
1x01 of "Show" is titled "1984", the first scan names the file
`"Show - S01E01 - 1984.mkv"` (target form), and re-running the per-file
naming on that very name changes it again (the year token 1984 makes
parse_movie fire), to `"Show - S01E01 - (1984).mkv"`. -/
theorem c9_counterexample :
    get_new_name (showClient "1984") "Show.S01E01.mkv" =
      Except.ok "Show - S01E01 - 1984.mkv" ∧
    get_new_name (showClient "1984") "Show - S01E01 - 1984.mkv" =
      Except.ok "Show - S01E01 - (1984).mkv" ∧
    ("Show - S01E01 - (1984).mkv" : String) ≠ "Show - S01E01 - 1984.mkv" :=
  ⟨rfl, rfl, by decide⟩

/-! ### C4: the episode matcher agrees with the declarative pattern -/

theorem dig_not_isE {c : Char} (h : isDig c = true) : isE c = false := by
  rcases isDig_iff.mp h with ⟨h1, h2⟩
  rw [Bool.eq_false_iff]
  intro hs
  simp only [isE, Bool.or_eq_true, beq_iff_eq, char_eq_iff_toNat,
    show ('E').toNat = 69 from rfl, show ('e').toNat = 101 from rfl] at hs
  omega

theorem isE_not_dig {c : Char} (h : isE c = true) : isDig c = false := by
  simp only [isE, Bool.or_eq_true, beq_iff_eq] at h
  rcases h with rfl | rfl <;> rfl

theorem isS_not_sepClass {c : Char} (h : isS c = true) : sepClass c = false := by
  simp only [isS, Bool.or_eq_true, beq_iff_eq] at h
  rcases h with rfl | rfl <;> rfl

theorem matchE2_iff (cs : List Char) (v : Nat) :
    matchE2 cs = some v ↔
      ∃ ec d1 d2 r, cs = ec :: d1 :: d2 :: r ∧ isE ec = true ∧
        isDig d1 = true ∧ isDig d2 = true ∧ v = 10 * dval d1 + dval d2 := by
  constructor
  · intro h
    match cs with
    | [] => cases h
    | [a] => cases h
    | [a, b] => cases h
    | ec :: d1 :: d2 :: r =>
      unfold matchE2 at h
      dsimp only at h
      by_cases hg : (isE ec && isDig d1 && isDig d2) = true
      · rw [if_pos hg] at h
        simp only [Bool.and_eq_true] at hg
        cases h
        exact ⟨ec, d1, d2, r, rfl, hg.1.1, hg.1.2, hg.2, rfl⟩
      · rw [if_neg hg] at h
        cases h
  · rintro ⟨ec, d1, d2, r, rfl, hE, h1, h2, rfl⟩
    unfold matchE2
    dsimp only
    rw [hE, h1, h2]
    rfl

theorem digitsVal_one (a : Char) : digitsVal [a] = dval a := by
  simp [digitsVal]

theorem digitsVal_two (a b : Char) : digitsVal [a, b] = 10 * dval a + dval b := by
  simp [digitsVal]

theorem matchSE_iff (cs : List Char) (s e : Nat) :
    matchSE cs = some (s, e) ↔ SETailP cs s e := by
  constructor
  · intro h
    match cs with
    | [] => cases h
    | [a] => cases h
    | x :: d1 :: rest =>
      unfold matchSE at h
      dsimp only at h
      by_cases hg : (isS x && isDig d1) = true
      · rw [if_pos hg] at h
        simp only [Bool.and_eq_true] at hg
        cases rest with
        | nil => cases h
        | cons d2 rest2 =>
          dsimp only at h
          by_cases hd2 : isDig d2 = true
          · rw [if_pos hd2] at h
            cases hE : matchE2 rest2 with
            | some ep =>
              rw [hE] at h
              obtain ⟨ec, e1, e2, r, rfl, hEc, he1, he2, rfl⟩ := (matchE2_iff _ _).mp hE
              cases h
              refine ⟨x, [d1, d2], ec, e1, e2, r, rfl, hg.1, hEc, ?_,
                Or.inr rfl, he1, he2, (digitsVal_two d1 d2).symm, rfl⟩
              intro c hc
              rcases List.mem_cons.mp hc with rfl | hc2
              · exact hg.2
              · rcases List.mem_cons.mp hc2 with rfl | hc3
                · exact hd2
                · cases hc3
            | none =>
              rw [hE] at h
              cases hE2 : matchE2 (d2 :: rest2) with
              | some ep =>
                rw [hE2] at h
                obtain ⟨ec, e1, e2, r, heq2, hEc, he1, he2, rfl⟩ := (matchE2_iff _ _).mp hE2
                have : ec = d2 := ((List.cons.inj heq2).1).symm
                subst this
                rw [isE_not_dig hEc] at hd2
                cases hd2
              | none =>
                rw [hE2] at h
                cases h
          · rw [if_neg hd2] at h
            cases hE2 : matchE2 (d2 :: rest2) with
            | some ep =>
              rw [hE2] at h
              obtain ⟨ec, e1, e2, r, heq2, hEc, he1, he2, rfl⟩ := (matchE2_iff _ _).mp hE2
              cases h
              have hec := ((List.cons.inj heq2).1).symm
              have htail := (List.cons.inj heq2).2
              subst hec
              refine ⟨x, [d1], ec, e1, e2, r, ?_, hg.1, hEc, ?_,
                Or.inl rfl, he1, he2, (digitsVal_one d1).symm, rfl⟩
              · rw [htail]
                rfl
              · intro c hc
                rcases List.mem_cons.mp hc with rfl | hc2
                · exact hg.2
                · cases hc2
            | none =>
              rw [hE2] at h
              cases h
      · rw [if_neg hg] at h
        cases h
  · rintro ⟨sc, ds, ec, d1, d2, r, rfl, hS, hE, hdig, hlen, h1, h2, rfl, rfl⟩
    match ds, hlen with
    | [a], _ =>
      have hcond : (isS sc && isDig a) = true := by
        rw [hS, hdig a (by simp)]; rfl
      show (if (isS sc && isDig a) = true then
          if isDig ec = true then
            match matchE2 (d1 :: d2 :: r) with
            | some ep => some (10 * dval a + dval ec, ep)
            | none =>
              match matchE2 (ec :: d1 :: d2 :: r) with
              | some ep => some (dval a, ep)
              | none => none
          else
            match matchE2 (ec :: d1 :: d2 :: r) with
            | some ep => some (dval a, ep)
            | none => none
        else none) = some (digitsVal [a], 10 * dval d1 + dval d2)
      rw [if_pos hcond, isE_not_dig hE]
      simp only [Bool.false_eq_true, if_false]
      rw [(matchE2_iff (ec :: d1 :: d2 :: r) (10 * dval d1 + dval d2)).mpr
        ⟨ec, d1, d2, r, rfl, hE, h1, h2, rfl⟩]
      rw [digitsVal_one]
    | [a, b], _ =>
      have hcond : (isS sc && isDig a) = true := by
        rw [hS, hdig a (by simp)]; rfl
      show (if (isS sc && isDig a) = true then
          if isDig b = true then
            match matchE2 (ec :: d1 :: d2 :: r) with
            | some ep => some (10 * dval a + dval b, ep)
            | none =>
              match matchE2 (b :: ec :: d1 :: d2 :: r) with
              | some ep => some (dval a, ep)
              | none => none
          else
            match matchE2 (b :: ec :: d1 :: d2 :: r) with
            | some ep => some (dval a, ep)
            | none => none
        else none) = some (digitsVal [a, b], 10 * dval d1 + dval d2)
      rw [if_pos hcond, hdig b (by simp)]
      simp only [if_true]
      rw [(matchE2_iff (ec :: d1 :: d2 :: r) (10 * dval d1 + dval d2)).mpr
        ⟨ec, d1, d2, r, rfl, hE, h1, h2, rfl⟩]
      rw [digitsVal_two]
    | [], hlen => rcases hlen with h | h <;> cases h
    | a :: b :: c :: ds2, hlen =>
      rcases hlen with h | h <;> simp at h

theorem SepSEP_nil (s e : Nat) : ¬ SepSEP [] s e := by
  rintro ⟨sep, t, heq, hne, _, _⟩
  cases sep with
  | nil => exact hne rfl
  | cons a b => cases heq

theorem sepSE_iff (r : List Char) (s e : Nat) :
    sepSE r = some (s, e) ↔ SepSEP r s e := by
  induction r with
  | nil =>
    constructor
    · intro h; cases h
    · intro h; exact absurd h (SepSEP_nil s e)
  | cons c rest ih =>
    constructor
    · intro h
      unfold sepSE at h
      by_cases hc : sepClass c = true
      · rw [if_pos hc] at h
        cases h1 : sepSE rest with
        | some p =>
          rw [h1] at h
          cases h
          obtain ⟨sep2, t2, rfl, hne2, hall2, htail2⟩ := ih.mp h1
          refine ⟨c :: sep2, t2, rfl, by simp, ?_, htail2⟩
          intro x hx
          rcases List.mem_cons.mp hx with rfl | hx2
          · exact hc
          · exact hall2 x hx2
        | none =>
          rw [h1] at h
          dsimp only at h
          have := (matchSE_iff rest s e).mp h
          refine ⟨[c], rest, rfl, by simp, ?_, this⟩
          intro x hx
          simp at hx
          subst hx
          exact hc
      · rw [if_neg hc] at h
        cases h
    · rintro ⟨sep, t, heq, hne, hall, htail⟩
      cases sep with
      | nil => exact absurd rfl hne
      | cons s0 sep2 =>
        obtain ⟨hc0, hrest⟩ := List.cons.inj heq
        subst hc0
        unfold sepSE
        have hcc : sepClass c = true := hall c (by simp)
        rw [if_pos hcc]
        cases sep2 with
        | nil =>
          have hrt : rest = t := by simpa using hrest
          subst hrt
          obtain ⟨sc, ds, ec, d1, d2, r2, heqt, hS, hrest2⟩ := htail
          have hnone : sepSE rest = none := by
            rw [heqt]
            unfold sepSE
            rw [isS_not_sepClass hS]
            simp
          rw [hnone]
          exact (matchSE_iff _ s e).mpr ⟨sc, ds, ec, d1, d2, r2, heqt, hS, hrest2⟩
        | cons s1 sep3 =>
          have hsub : SepSEP rest s e := by
            refine ⟨s1 :: sep3, t, hrest, by simp, ?_, htail⟩
            intro x hx
            exact hall x (by simp [hx])
          rw [ih.mpr hsub]

theorem SepSEP_func {r : List Char} {s e s2 e2 : Nat}
    (h1 : SepSEP r s e) (h2 : SepSEP r s2 e2) : s = s2 ∧ e = e2 := by
  have a1 := (sepSE_iff r s e).mpr h1
  have a2 := (sepSE_iff r s2 e2).mpr h2
  rw [a1] at a2
  have h3 : s2 = s ∧ e2 = e := by simpa using a2.symm
  exact ⟨h3.1.symm, h3.2.symm⟩

/-- Full characterization of the lazy-show search at one start position:
`findSE acc cs` succeeds exactly on the shortest non-empty newline-free show
prefix after which separators and the marker match, and returns the
accumulated show. -/
theorem findSE_iff (cs : List Char) : ∀ (acc sh : List Char) (s e : Nat),
    findSE acc cs = some (sh, s, e) ↔
      ∃ L, 0 < L ∧ L ≤ cs.length ∧ (∀ c ∈ cs.take L, c ≠ '\n') ∧
        SepSEP (cs.drop L) s e ∧ sh = acc.reverse ++ cs.take L ∧
        ∀ L2, 0 < L2 → L2 < L → ∀ s2 e2, ¬ SepSEP (cs.drop L2) s2 e2 := by
  induction cs with
  | nil =>
    intro acc sh s e
    constructor
    · intro h; cases h
    · rintro ⟨L, hL, hlen, _⟩
      simp at hlen
      omega
  | cons c rest ih =>
    intro acc sh s e
    constructor
    · intro h
      unfold findSE at h
      by_cases hnl : c = '\n'
      · rw [if_pos hnl] at h; cases h
      · rw [if_neg hnl] at h
        cases h1 : sepSE rest with
        | some p =>
          rw [h1] at h
          dsimp only at h
          cases h
          obtain ⟨s, e⟩ := p
          refine ⟨1, by omega, by simp, ?_, ?_, by simp, ?_⟩
          · intro x hx
            simp at hx
            subst hx
            exact hnl
          · simpa using (sepSE_iff rest s e).mp h1
          · intro L2 h0 h1b
            omega
        | none =>
          rw [h1] at h
          dsimp only at h
          obtain ⟨L, hL, hlen, hnlp, hsep, hsh, hmin⟩ := (ih (c :: acc) sh s e).mp h
          refine ⟨L + 1, by omega, by simpa using Nat.succ_le_succ hlen, ?_, ?_, ?_, ?_⟩
          · intro x hx
            rw [List.take_succ_cons] at hx
            rcases List.mem_cons.mp hx with rfl | hx2
            · exact hnl
            · exact hnlp x hx2
          · simpa using hsep
          · rw [List.take_succ_cons, hsh]
            simp
          · intro L2 h0 hlt s2 e2 hhit
            cases L2 with
            | zero => omega
            | succ L3 =>
              cases L3 with
              | zero =>
                simp only [List.drop_succ_cons, List.drop_zero] at hhit
                rw [(sepSE_iff rest s2 e2).mpr hhit] at h1
                cases h1
              | succ L4 =>
                refine hmin (L4 + 1) (by omega) (by omega) s2 e2 ?_
                simpa using hhit
    · rintro ⟨L, hL, hlen, hnlp, hsep, hsh, hmin⟩
      unfold findSE
      have hnl : ¬ c = '\n' := by
        intro hc
        exact hnlp c (by
          cases L with
          | zero => omega
          | succ L2 => simp) hc
      rw [if_neg hnl]
      cases L with
      | zero => omega
      | succ L2 =>
        cases L2 with
        | zero =>
          simp only [List.drop_succ_cons, List.drop_zero] at hsep
          rw [(sepSE_iff rest s e).mpr hsep]
          dsimp only
          rw [hsh]
          simp
        | succ L3 =>
          have h1 : sepSE rest = none := by
            cases hso : sepSE rest with
            | none => rfl
            | some p =>
              obtain ⟨s2, e2⟩ := p
              exact absurd (by simpa using (sepSE_iff rest s2 e2).mp hso)
                (hmin 1 (by omega) (by omega) s2 e2)
          rw [h1]
          dsimp only
          refine (ih (c :: acc) sh s e).mpr ⟨L3 + 1, by omega, ?_, ?_, ?_, ?_, ?_⟩
          · simpa using Nat.le_of_succ_le_succ hlen
          · intro x hx
            refine hnlp x ?_
            rw [List.take_succ_cons]
            simp [hx]
          · simpa using hsep
          · rw [hsh, List.take_succ_cons]
            simp
          · intro L4 h0 hlt s2 e2 hhit
            refine hmin (L4 + 1) (by omega) (by omega) s2 e2 ?_
            simpa using hhit

/-- `searchTV` returns the match at the leftmost start position with a
match, if any. -/
theorem searchTV_iff (cs : List Char) : ∀ r : List Char × Nat × Nat,
    searchTV cs = some r ↔
      ∃ i, findSE [] (cs.drop i) = some r ∧
        ∀ j, j < i → findSE [] (cs.drop j) = none := by
  induction cs with
  | nil =>
    intro r
    constructor
    · intro h; cases h
    · rintro ⟨i, hfind, _⟩
      rw [List.drop_nil] at hfind
      rw [show findSE [] ([] : List Char) = none from rfl] at hfind
      cases hfind
  | cons c rest ih =>
    intro r
    constructor
    · intro h
      unfold searchTV at h
      cases h1 : findSE [] (c :: rest) with
      | some r0 =>
        rw [h1] at h
        dsimp only at h
        cases h
        exact ⟨0, by simpa using h1, fun j hj => absurd hj (Nat.not_lt_zero j)⟩
      | none =>
        rw [h1] at h
        dsimp only at h
        obtain ⟨i, hfind, hprev⟩ := (ih r).mp h
        refine ⟨i + 1, by simpa using hfind, ?_⟩
        intro j hj
        cases j with
        | zero => simpa using h1
        | succ j2 => simpa using hprev j2 (by omega)
    · rintro ⟨i, hfind, hprev⟩
      unfold searchTV
      cases h1 : findSE [] (c :: rest) with
      | some r0 =>
        dsimp only
        cases i with
        | zero =>
          rw [List.drop_zero, h1] at hfind
          cases hfind
          rfl
        | succ i2 =>
          have h2 := hprev 0 (by omega)
          rw [List.drop_zero, h1] at h2
          cases h2
      | none =>
        dsimp only
        cases i with
        | zero =>
          rw [List.drop_zero, h1] at hfind
          cases hfind
        | succ i2 =>
          refine (ih r).mpr ⟨i2, by simpa using hfind, ?_⟩
          intro j hj
          simpa using hprev (j + 1) (by omega)

theorem findSE_none_iff (cs0 : List Char) :
    findSE [] cs0 = none ↔
      ∀ L s e, ¬(0 < L ∧ L ≤ cs0.length ∧ (∀ c ∈ cs0.take L, c ≠ '\n') ∧
        SepSEP (cs0.drop L) s e) := by
  constructor
  · intro hnone L s e hcond
    obtain ⟨hL, hlen, hnl, hsep⟩ := hcond
    classical
    have hex : ∃ L2, 0 < L2 ∧ L2 ≤ cs0.length ∧
        (∀ c ∈ cs0.take L2, c ≠ '\n') ∧ ∃ s2 e2, SepSEP (cs0.drop L2) s2 e2 :=
      ⟨L, hL, hlen, hnl, s, e, hsep⟩
    obtain ⟨hL0, hlen0, hnl0, s0, e0, hsep0⟩ := Nat.find_spec hex
    have hres := (findSE_iff cs0 [] (cs0.take (Nat.find hex)) s0 e0).mpr
      ⟨Nat.find hex, hL0, hlen0, hnl0, hsep0, by simp, ?_⟩
    · rw [hnone] at hres
      cases hres
    · intro L2 hp hlt s2 e2 hsep2
      refine Nat.find_min hex hlt ⟨hp, by omega, ?_, s2, e2, hsep2⟩
      intro x hx
      refine hnl0 x ?_
      have ht : cs0.take L2 = (cs0.take (Nat.find hex)).take L2 := by
        rw [List.take_take, Nat.min_eq_left (by omega)]
      rw [ht] at hx
      exact List.take_subset _ _ hx
  · intro hno
    cases hf : findSE [] cs0 with
    | none => rfl
    | some r =>
      obtain ⟨sh, s, e⟩ := r
      obtain ⟨L, hL, hlen, hnl, hsep, _, _⟩ := (findSE_iff cs0 [] sh s e).mp hf
      exact absurd ⟨hL, hlen, hnl, hsep⟩ (hno L s e)

theorem searchTV_none_iff (cs : List Char) :
    searchTV cs = none ↔ ∀ i, findSE [] (cs.drop i) = none := by
  constructor
  · intro h i
    cases hf : findSE [] (cs.drop i) with
    | none => rfl
    | some r =>
      exfalso
      classical
      have hex : ∃ j, findSE [] (cs.drop j) ≠ none := ⟨i, by rw [hf]; simp⟩
      have hspec := Nat.find_spec hex
      cases hf0 : findSE [] (cs.drop (Nat.find hex)) with
      | none => exact hspec hf0
      | some r0 =>
        have hst : searchTV cs = some r0 := by
          refine (searchTV_iff cs r0).mpr ⟨Nat.find hex, hf0, ?_⟩
          intro j hj
          exact not_not.mp (Nat.find_min hex hj)
        rw [h] at hst
        cases hst
  · intro hall
    cases hs : searchTV cs with
    | none => rfl
    | some r =>
      obtain ⟨i, hfind, _⟩ := (searchTV_iff cs r).mp hs
      rw [hall i] at hfind
      cases hfind

theorem matchAtP_local (cs : List Char) (i L s e : Nat) :
    MatchAtP cs i L s e ↔
      (0 < L ∧ L ≤ (cs.drop i).length ∧ (∀ c ∈ (cs.drop i).take L, c ≠ '\n') ∧
        SepSEP ((cs.drop i).drop L) s e) := by
  unfold MatchAtP
  rw [List.drop_drop, List.length_drop]
  constructor
  · rintro ⟨h1, h2, h3, h4⟩
    exact ⟨h2, by omega, h3, h4⟩
  · rintro ⟨h1, h2, h3, h4⟩
    exact ⟨by omega, h1, h3, h4⟩

/-- C4.  `parse_tv` strips the extension and searches the base name,
case-insensitively and unanchored, for a lazy run of characters, then
one-or-more non-word-or-underscore separators, then `S` + 1-2 digits + `E`
+ exactly 2 digits: it returns none exactly when no such match exists
(`MatchAtP`), and on success it returns the fields of the leftmost match
with the shortest show, the show having dots replaced by spaces and being
trimmed, with season and episode as integers — in particular
`parse_tv "Show Name - s2e04.mkv"` is show "Show Name", season 2,
episode 4. -/
theorem c4_parse_tv_follows_spec (f : String) :
    (parse_tv f = none ↔
      ¬ ∃ i L s e, MatchAtP ((splitext f.data).1) i L s e) ∧
    (∀ sh s e, parse_tv f = some ⟨sh, s, e⟩ ↔
      ∃ i L, MatchAtP ((splitext f.data).1) i L s e ∧
        (∀ i2 L2 s2 e2, MatchAtP ((splitext f.data).1) i2 L2 s2 e2 → i ≤ i2) ∧
        (∀ L2 s2 e2, MatchAtP ((splitext f.data).1) i L2 s2 e2 → L ≤ L2) ∧
        sh = String.mk (trimChars (((((splitext f.data).1).drop i).take L).map
          (fun c => if c = '.' then ' ' else c)))) ∧
    parse_tv "Show Name - s2e04.mkv" = some ⟨"Show Name", 2, 4⟩ := by
  have hall_iff : (∀ i, findSE [] (((splitext f.data).1).drop i) = none) ↔
      ¬ ∃ i L s e, MatchAtP ((splitext f.data).1) i L s e := by
    constructor
    · rintro hall ⟨i, L, s, e, hM⟩
      obtain ⟨h1, h2, h3, h4⟩ := (matchAtP_local _ i L s e).mp hM
      exact (findSE_none_iff _).mp (hall i) L s e ⟨h1, h2, h3, h4⟩
    · intro hno i
      rw [findSE_none_iff]
      intro L s e hc
      exact hno ⟨i, L, s, e, (matchAtP_local _ i L s e).mpr hc⟩
  refine ⟨?_, ?_, rfl⟩
  · have hnone_iff : parse_tv f = none ↔
        searchTV ((splitext f.data).1) = none := by
      unfold parse_tv
      cases hs : searchTV ((splitext f.data).1) with
      | none => simp [hs]
      | some r => simp [hs]
    exact hnone_iff.trans ((searchTV_none_iff _).trans hall_iff)
  · intro sh s e
    have hsome_iff : parse_tv f = some ⟨sh, s, e⟩ ↔
        ∃ raw, searchTV ((splitext f.data).1) = some (raw, s, e) ∧
          sh = String.mk (trimChars (raw.map (fun c => if c = '.' then ' ' else c))) := by
      unfold parse_tv
      dsimp only
      cases hs : searchTV ((splitext f.data).1) with
      | none =>
        constructor
        · intro h; cases h
        · rintro ⟨raw, hraw, _⟩; cases hraw
      | some r =>
        obtain ⟨raw0, s0, e0⟩ := r
        dsimp only
        constructor
        · intro h
          rw [Option.some_inj] at h
          simp only [TVInfo.mk.injEq] at h
          obtain ⟨h1, h2, h3⟩ := h
          subst h2
          subst h3
          exact ⟨raw0, rfl, h1.symm⟩
        · rintro ⟨raw, hraw, hsh⟩
          rw [Option.some_inj] at hraw
          simp only [Prod.mk.injEq] at hraw
          obtain ⟨hr1, hr2, hr3⟩ := hraw
          subst hr1
          subst hr2
          subst hr3
          rw [hsh]
    rw [hsome_iff]
    constructor
    · rintro ⟨raw, hst, hsh⟩
      obtain ⟨i, hfind, hprev⟩ := (searchTV_iff _ _).mp hst
      obtain ⟨L, hL, hlen, hnl, hsep, hshraw, hminL⟩ :=
        (findSE_iff _ [] raw s e).mp hfind
      refine ⟨i, L, (matchAtP_local _ i L s e).mpr ⟨hL, hlen, hnl, hsep⟩,
        ?_, ?_, ?_⟩
      · intro i2 L2 s2 e2 hM2
        by_contra hlt
        push_neg at hlt
        obtain ⟨g1, g2, g3, g4⟩ := (matchAtP_local _ i2 L2 s2 e2).mp hM2
        exact (findSE_none_iff _).mp (hprev i2 hlt) L2 s2 e2 ⟨g1, g2, g3, g4⟩
      · intro L2 s2 e2 hM2
        obtain ⟨g1, g2, g3, g4⟩ := (matchAtP_local _ i L2 s2 e2).mp hM2
        by_contra hlt
        push_neg at hlt
        exact hminL L2 g1 hlt s2 e2 g4
      · rw [hsh, hshraw]
        simp
    · rintro ⟨i, L, hM, hleft, hmin, hsh⟩
      obtain ⟨h1, h2, h3, h4⟩ := (matchAtP_local _ i L s e).mp hM
      have hminSep : ∀ L2, 0 < L2 → L2 < L → ∀ s2 e2,
          ¬ SepSEP ((((splitext f.data).1).drop i).drop L2) s2 e2 := by
        intro L2 hp hlt s2 e2 hsep2
        have hnlp : ∀ c ∈ (((splitext f.data).1).drop i).take L2, c ≠ '\n' := by
          intro x hx
          refine h3 x ?_
          have ht : (((splitext f.data).1).drop i).take L2 =
              ((((splitext f.data).1).drop i).take L).take L2 := by
            rw [List.take_take, Nat.min_eq_left (by omega)]
          rw [ht] at hx
          exact List.take_subset _ _ hx
        have hM2 : MatchAtP ((splitext f.data).1) i L2 s2 e2 :=
          (matchAtP_local _ i L2 s2 e2).mpr ⟨hp, by omega, hnlp, hsep2⟩
        have := hmin L2 s2 e2 hM2
        omega
      have hfind : findSE [] (((splitext f.data).1).drop i) =
          some ((((splitext f.data).1).drop i).take L, s, e) :=
        (findSE_iff _ [] _ s e).mpr ⟨L, h1, h2, h3, h4, by simp, hminSep⟩
      have hprev : ∀ j, j < i →
          findSE [] (((splitext f.data).1).drop j) = none := by
        intro j hj
        rw [findSE_none_iff]
        intro L2 s2 e2 hc
        obtain ⟨g1, g2, g3, g4⟩ := hc
        have hM2 := (matchAtP_local _ j L2 s2 e2).mpr ⟨g1, g2, g3, g4⟩
        have := hleft j L2 s2 e2 hM2
        omega
      exact ⟨_, (searchTV_iff _ _).mpr ⟨i, hfind, hprev⟩, by rw [hsh]⟩

end FileBot
